import Mathlib

/-!
Shallow embedding of the Hermes BigInt support engine
(src/lib/Support/BigIntSupport.cpp).

Digits are 64-bit machine words (BigIntDigitType = uint64_t), modelled as
natural numbers; a BigInt reference is a little-endian list of digits
(index 0 is least significant), interpreted in two's complement.  Raw byte
buffers are little-endian lists of naturals below 256.  Destination buffers
of mutating operations are modelled as the list of digit words the
destination ref currently exposes (its length is the numDigits in-value);
operations return the resulting OperationStatus together with the digits the
destination exposes afterwards.  The llvh::APInt digit-propagation
primitives (tcAdd, tcSubtract, tcAddPart, tcSubtractPart, tcNegate,
tcComplement, tcCompare) are external library routines; they are embedded
here by their multi-word two's-complement semantics.
-/

namespace hermes
namespace bigint

/-- Result code of the mutating operations (OperationStatus in the source). -/
inductive OperationStatus where
  | RETURNED
  | DEST_TOO_SMALL
deriving DecidableEq, Repr

/-- Sign scanned from a string integer literal (ParsedSign in the source). -/
inductive ParsedSign where
  | None
  | Plus
  | Minus
deriving DecidableEq, Repr

/-- Modelled from the spec: getSignExtValue on a byte (header helper missing
from src/) — the value that sign-extends a byte: 0xFF when the sign bit of
the byte is set, 0x00 otherwise. -/
def getSignExtValueByte (b : Nat) : Nat :=
  if 128 ≤ b then 255 else 0

/-- Modelled from the spec: getSignExtValue on a 64-bit digit (header helper
missing from src/) — all-ones when the signed interpretation is negative. -/
def getSignExtValueDigit (d : Nat) : Nat :=
  if 2 ^ 63 ≤ d then 2 ^ 64 - 1 else 0

/-- Modelled from the spec: numDigitsForSizeInBytes (header helper missing
from src/) — a byte count rounded up to whole 8-byte digits. -/
def numDigitsForSizeInBytes (v : Nat) : Nat :=
  (v + 7) / 8

/-- Little-endian byte view of one 64-bit digit (the source reinterprets the
digit array as a uint8_t array; on the asserted little-endian host digit d
contributes these 8 bytes, least significant first). -/
def digitToBytes (d : Nat) : List Nat :=
  [d % 256, d / 256 % 256, d / 256 ^ 2 % 256, d / 256 ^ 3 % 256,
   d / 256 ^ 4 % 256, d / 256 ^ 5 % 256, d / 256 ^ 6 % 256, d / 256 ^ 7 % 256]

/-- Little-endian byte view of a digit array. -/
def digitsToBytes : List Nat → List Nat
  | [] => []
  | d :: rest => digitToBytes d ++ digitsToBytes rest

/-- Value of a little-endian byte list as one digit word
(the inverse reinterpretation, bytes least significant first). -/
def digitOfBytes : List Nat → Nat
  | [] => 0
  | b :: rest => b + 256 * digitOfBytes rest

/-- Reads a little-endian byte buffer back as whole 64-bit digits
(8 bytes per digit; a trailing partial chunk never occurs in the source,
which always views whole digit arrays). -/
def bytesToDigits : List Nat → List Nat
  | b0 :: b1 :: b2 :: b3 :: b4 :: b5 :: b6 :: b7 :: rest =>
      digitOfBytes [b0, b1, b2, b3, b4, b5, b6, b7] :: bytesToDigits rest
  | _ => []

/-- Core of dropExtraSignBits, phrased on the reversed (most-significant
first) byte list: the source's while loop pops trailing bytes equal to the
sign-extension value of the last byte, which on the reversed list is exactly
dropWhile; previousSrc at loop exit is the popped byte put back in front.
The final conditional is the source's
"getSignExtValue(lastChar) == drop ? src : previousSrc". -/
def rdropExtra (rl : List Nat) : List Nat :=
  match rl with
  | [] => []
  | b :: _ =>
    let drop := getSignExtValueByte b
    let rs := rl.dropWhile (fun x => x = drop)
    if getSignExtValueByte (rs.headD 0) = drop then rs else drop :: rs

/-- dropExtraSignBits from the source: trims every trailing
(most-significant) byte that a sign extension of the remaining prefix
reproduces. -/
def dropExtraSignBits (src : List Nat) : List Nat :=
  (rdropExtra src.reverse).reverse

/-- ensureCanonicalResult from the source: views the digits as bytes, trims
the extra sign bytes, and shrinks numDigits to the byte count rounded up to
whole digits (only numDigits shrinks; the modelled ref keeps its leading
digits). -/
def ensureCanonicalResult (ds : List Nat) : List Nat :=
  ds.take (numDigitsForSizeInBytes (dropExtraSignBits (digitsToBytes ds)).length)

/-- isNegative from the source: more than zero digits and the signed
interpretation of the most significant digit is negative. -/
def isNegative (ds : List Nat) : Bool :=
  match ds.getLast? with
  | Option.none => false
  | Option.some d => decide (2 ^ 63 ≤ d)

/-- Every digit word fits in 64 bits. -/
def validDigits (ds : List Nat) : Prop :=
  ∀ d ∈ ds, d < 2 ^ 64

/-- Unsigned value of a little-endian digit sequence. -/
def natOfDigits : List Nat → Nat
  | [] => 0
  | d :: rest => d + 2 ^ 64 * natOfDigits rest

/-- Signed two's-complement value of a digit sequence. -/
def bigIntValue (ds : List Nat) : Int :=
  (natOfDigits ds : Int) - (if isNegative ds then ((2 : Int) ^ 64) ^ ds.length else 0)

/-- Little-endian digit decomposition of a natural number into n digits. -/
def digitsOfNat : Nat → Nat → List Nat
  | 0, _ => []
  | n + 1, v => v % 2 ^ 64 :: digitsOfNat n (v / 2 ^ 64)

/-- Canonicity of an engine result, exactly as the spec states it: applying
dropExtraSignBits to the little-endian byte view of the digits and rounding
the byte count up to whole digits gives back exactly numDigits, so
re-running ensureCanonicalResult changes nothing; and a sequence whose
two's-complement value is zero has no digits. -/
def canonicalDigits (ds : List Nat) : Prop :=
  numDigitsForSizeInBytes (dropExtraSignBits (digitsToBytes ds)).length = ds.length ∧
  ensureCanonicalResult ds = ds ∧
  (bigIntValue ds = 0 → ds = [])

/-- initWithBytes from the source: fails (zeroing numDigits) when the data
does not fit the destination's byte capacity, returns the canonical zero for
empty data, and otherwise copies the data bytes, sign-extends the rest of
the destination buffer with the sign-extension value of the last data byte,
and canonicalizes. -/
def initWithBytes (dstCap : Nat) (data : List Nat) : OperationStatus × List Nat :=
  if dstCap * 8 < data.length then
    (OperationStatus.DEST_TOO_SMALL, [])
  else if data.length = 0 then
    (OperationStatus.RETURNED, [])
  else
    let ext := getSignExtValueByte (data.getLastD 0)
    let buf := data ++ List.replicate (dstCap * 8 - data.length) ext
    (OperationStatus.RETURNED, ensureCanonicalResult (bytesToDigits buf))

/-- Modelled from the spec: fromDouble's rounding of the double to an
arbitrary-precision integer goes through llvh::APIntOps::RoundDoubleToAPInt,
an external library routine not part of this repository; its little-endian
byte image is abstracted as the tmpBytes argument.  The source then does
exactly initWithBytes(dst, dropExtraSignBits(bytes)). -/
def fromDouble (dstCap : Nat) (tmpBytes : List Nat) : OperationStatus × List Nat :=
  initWithBytes dstCap (dropExtraSignBits tmpBytes)

/-- getBigIntRefSignExtValue from the source: 0 for an empty ref, otherwise
the digit sign-extension value of the most significant digit. -/
def getBigIntRefSignExtValue (ds : List Nat) : Nat :=
  match ds.getLast? with
  | Option.none => 0
  | Option.some d => getSignExtValueDigit d

/-- initNonCanonicalWithReadOnlyBigInt from the source: fails when the
destination capacity is below the source size (leaving the destination
untouched), otherwise copies the source digits and sign-extends up to the
destination capacity. -/
def initNonCanonicalWithReadOnlyBigInt (dstCap : Nat) (src : List Nat) :
    Option (List Nat) :=
  if dstCap < src.length then
    Option.none
  else
    Option.some (src ++ List.replicate (dstCap - src.length) (getBigIntRefSignExtValue src))

/-- llvh::APInt::tcNegate semantics: two's-complement negation of an n-digit
word array, in place, modulo 2^(64 n). -/
def tcNegate (ds : List Nat) : List Nat :=
  digitsOfNat ds.length
    ((2 ^ (64 * ds.length) - natOfDigits ds % 2 ^ (64 * ds.length)) % 2 ^ (64 * ds.length))

/-- llvh::APInt::tcComplement semantics: bitwise complement of every digit. -/
def tcComplement (ds : List Nat) : List Nat :=
  ds.map (fun d => 2 ^ 64 - 1 - d)

/-- unaryMinusResultSize from the source. -/
def unaryMinusResultSize (src : List Nat) : Nat :=
  if isNegative src = false then src.length else src.length + 1

/-- unaryMinus from the source: sign-extend src into dst, tcNegate in place,
canonicalize.  On DEST_TOO_SMALL the destination is returned as it was. -/
def unaryMinus (dstBuf src : List Nat) : OperationStatus × List Nat :=
  match initNonCanonicalWithReadOnlyBigInt dstBuf.length src with
  | Option.none => (OperationStatus.DEST_TOO_SMALL, dstBuf)
  | Option.some work => (OperationStatus.RETURNED, ensureCanonicalResult (tcNegate work))

/-- unaryNot from the source: sign-extend, tcComplement, canonicalize. -/
def unaryNot (dstBuf src : List Nat) : OperationStatus × List Nat :=
  match initNonCanonicalWithReadOnlyBigInt dstBuf.length src with
  | Option.none => (OperationStatus.DEST_TOO_SMALL, dstBuf)
  | Option.some work => (OperationStatus.RETURNED, ensureCanonicalResult (tcComplement work))

/-- llvh::APInt::tcAdd semantics on equal-length word arrays: digitwise
addition with carry propagation; returns the new digits and the carry out. -/
def tcAdd : List Nat → List Nat → Nat → List Nat × Nat
  | a :: as, b :: bs, c =>
      let s := a + b + c
      let r := tcAdd as bs (s / 2 ^ 64)
      (s % 2 ^ 64 :: r.1, r.2)
  | _, _, c => ([], c)

/-- llvh::APInt::tcSubtract semantics on equal-length word arrays: digitwise
subtraction with borrow propagation; returns the new digits and the borrow
out. -/
def tcSubtract : List Nat → List Nat → Nat → List Nat × Nat
  | a :: as, b :: bs, c =>
      let bor := if a < b + c then 1 else 0
      let r := tcSubtract as bs bor
      ((a + bor * 2 ^ 64 - (b + c)) :: r.1, r.2)
  | _, _, c => ([], c)

/-- llvh::APInt::tcAddPart semantics: add a single word to a word array,
propagating the carry. -/
def tcAddPart : List Nat → Nat → List Nat
  | [], _ => []
  | d :: rest, w => (d + w) % 2 ^ 64 :: tcAddPart rest ((d + w) / 2 ^ 64)

/-- llvh::APInt::tcSubtractPart semantics: subtract a single word from a
word array, propagating the borrow. -/
def tcSubtractPart : List Nat → Nat → List Nat
  | [], _ => []
  | d :: rest, w =>
      (d + (if d < w then 1 else 0) * 2 ^ 64 - w) ::
        tcSubtractPart rest (if d < w then 1 else 0)

/-- Clamp of the destination numDigits performed by additiveOperation:
an oversized destination is limited to rhs.numDigits + 1 digits. -/
def clampedND (dstLen rhsLen : Nat) : Nat :=
  if rhsLen + 1 < dstLen then rhsLen + 1 else dstLen

/-- Digit data written by the body of additiveOperation into the (clamped)
destination of nd digits: lhs is sign-extended to nd digits, op combines the
low rhs.numDigits digits against rhs with carry in 0, opPart folds the carry
out plus rhs's sign-extension word into the remaining digits, and opPost
post-processes the whole buffer. -/
def additiveRes (op : List Nat → List Nat → Nat → List Nat × Nat)
    (opPart : List Nat → Nat → List Nat) (opPost : List Nat → List Nat)
    (nd : Nat) (lhs rhs : List Nat) : List Nat :=
  let work := lhs ++ List.replicate (nd - lhs.length) (getBigIntRefSignExtValue lhs)
  let opRes := op (work.take rhs.length) rhs 0
  let high := opPart (work.drop rhs.length)
    ((opRes.2 + getBigIntRefSignExtValue rhs) % 2 ^ 64)
  opPost (opRes.1 ++ high)

/-- additiveOperation from the source, generic over the digit-propagation
primitive (op), the single-word continuation for the sign-extended upper
digits (opPart) and the optional post-processing (opPost).  Reports
DEST_TOO_SMALL when the destination has fewer digits than the wider operand,
clamps an oversized destination to rhs.numDigits + 1 digits, sign-extends
lhs into the destination, applies op digit-by-digit against rhs and opPart
beyond it, post-processes, and canonicalizes.  The result triple is
(status, numDigits out, destination buffer contents). -/
def additiveOperation (op : List Nat → List Nat → Nat → List Nat × Nat)
    (opPart : List Nat → Nat → List Nat) (opPost : List Nat → List Nat)
    (dstBuf lhs rhs : List Nat) : OperationStatus × Nat × List Nat :=
  if dstBuf.length < rhs.length then
    (OperationStatus.DEST_TOO_SMALL, dstBuf.length, dstBuf)
  else if clampedND dstBuf.length rhs.length < lhs.length then
    (OperationStatus.DEST_TOO_SMALL, clampedND dstBuf.length rhs.length, dstBuf)
  else
    (OperationStatus.RETURNED,
      (ensureCanonicalResult
        (additiveRes op opPart opPost (clampedND dstBuf.length rhs.length) lhs rhs)).length,
      additiveRes op opPart opPost (clampedND dstBuf.length rhs.length) lhs rhs ++
        dstBuf.drop (clampedND dstBuf.length rhs.length))

/-- add from the source: commutes the operands so the narrower one is
sign-extended first, then runs the generic additive routine with the APInt
add primitives and no post-processing. -/
def add (dstBuf lhs rhs : List Nat) : OperationStatus × Nat × List Nat :=
  if lhs.length ≤ rhs.length then
    additiveOperation tcAdd tcAddPart id dstBuf lhs rhs
  else
    additiveOperation tcAdd tcAddPart id dstBuf rhs lhs

/-- subtract from the source: when rhs is the wider operand it computes
rhs - lhs and negates the result, otherwise it subtracts directly. -/
def subtract (dstBuf lhs rhs : List Nat) : OperationStatus × Nat × List Nat :=
  if lhs.length ≤ rhs.length then
    additiveOperation tcSubtract tcSubtractPart id dstBuf lhs rhs
  else
    additiveOperation tcSubtract tcSubtractPart tcNegate dstBuf rhs lhs

/-- llvh::APInt::tcCompare semantics: compare equal-length word arrays from
the most significant digit down. -/
def cmpBE : List Nat → List Nat → Int
  | a :: as, b :: bs =>
      if a ≠ b then (if a < b then -1 else 1) else cmpBE as bs
  | _, _ => 0

/-- tcCompare on little-endian digit lists. -/
def tcCompare (a b : List Nat) : Int :=
  cmpBE a.reverse b.reverse

/-- compare from the source: different signs are decided by sign alone;
equal digit counts defer to tcCompare; otherwise the digit counts decide,
inverted for negative operands. -/
def compare (lhs rhs : List Nat) : Int :=
  if isNegative lhs ≠ isNegative rhs then
    (if isNegative lhs then -1 else 1)
  else if lhs.length = rhs.length then
    tcCompare lhs rhs
  else if isNegative lhs then
    (if lhs.length < rhs.length then 1 else -1)
  else
    (if lhs.length < rhs.length then -1 else 1)

/-- isWhiteSpaceChar from the source (ES5.1 7.2 WhiteSpace). -/
def isWhiteSpaceChar (c : Nat) : Bool :=
  c = 0x9 || c = 0xB || c = 0xC || c = 0x20 || c = 0xA0 || c = 0xFEFF ||
  c = 0x1680 || (0x2000 ≤ c && c ≤ 0x200A) || c = 0x202F || c = 0x205F || c = 0x3000

/-- StringIntegerLiteralParser constructor, first step: one trailing NUL
code unit, if present, is dropped from the input. -/
def dropOneTrailingNul (l : List Nat) : List Nat :=
  match l.getLast? with
  | Option.some 0 => l.dropLast
  | _ => l

/-- StringIntegerLiteralParser constructor: drop one trailing NUL, then trim
JS whitespace from both ends. -/
def trimInput (l : List Nat) : List Nat :=
  ((((dropOneTrailingNul l).dropWhile (fun c => isWhiteSpaceChar c)).reverse.dropWhile
    (fun c => isWhiteSpaceChar c)).reverse)

/-- Binary digit code units accepted after 0b/0B. -/
def binDigitChars : List Nat := [48, 49]

/-- Octal digit code units accepted after 0o/0O. -/
def octDigitChars : List Nat := [48, 49, 50, 51, 52, 53, 54, 55]

/-- Decimal digit code units. -/
def decDigitChars : List Nat := [48, 49, 50, 51, 52, 53, 54, 55, 56, 57]

/-- Hexadecimal digit code units accepted after 0x/0X. -/
def hexDigitChars : List Nat :=
  decDigitChars ++ [65, 66, 67, 68, 69, 70, 97, 98, 99, 100, 101, 102]

/-- Parser state: the remaining input (the source's cursor into the
immutable string), the radix out-parameter and the accumulated
bigintDigits.  The sign out-parameter is only touched by the goal function
and is threaded there. -/
structure PState where
  rem : List Nat
  radix : Nat
  digits : List Nat
deriving DecidableEq, Repr

/-- buildBigIntWithDigits from the source: repeatedly eat characters in the
accepted set, appending them to bigintDigits; returns the remaining input
and the accumulated digits. -/
def buildDigits (cs : List Nat) : List Nat → List Nat → List Nat × List Nat
  | c :: rest, acc =>
      if c ∈ cs then buildDigits cs rest (acc ++ [c]) else (c :: rest, acc)
  | [], acc => ([], acc)

/-- binaryIntegerLiteral from the source: eat a b/B prefix, set radix 2,
build binary digits; succeeds iff the digit run is non-empty. -/
def binaryIntegerLiteral (s : PState) : Bool × PState :=
  match s.rem with
  | c :: rest =>
      if c = 66 ∨ c = 98 then
        (decide ((buildDigits binDigitChars rest s.digits).2 ≠ []),
         PState.mk (buildDigits binDigitChars rest s.digits).1 2
           (buildDigits binDigitChars rest s.digits).2)
      else (false, s)
  | [] => (false, s)

/-- octalIntegerLiteral from the source. -/
def octalIntegerLiteral (s : PState) : Bool × PState :=
  match s.rem with
  | c :: rest =>
      if c = 79 ∨ c = 111 then
        (decide ((buildDigits octDigitChars rest s.digits).2 ≠ []),
         PState.mk (buildDigits octDigitChars rest s.digits).1 8
           (buildDigits octDigitChars rest s.digits).2)
      else (false, s)
  | [] => (false, s)

/-- hexIntegerLiteral from the source. -/
def hexIntegerLiteral (s : PState) : Bool × PState :=
  match s.rem with
  | c :: rest =>
      if c = 88 ∨ c = 120 then
        (decide ((buildDigits hexDigitChars rest s.digits).2 ≠ []),
         PState.mk (buildDigits hexDigitChars rest s.digits).1 16
           (buildDigits hexDigitChars rest s.digits).2)
      else (false, s)
  | [] => (false, s)

/-- nonDecimalIntegerLiteral from the source: binary, else octal, else hex,
with the cursor threaded through the failed attempts (no restore between
them, exactly as the short-circuit disjunction in the source). -/
def nonDecimalIntegerLiteral (s : PState) : Bool × PState :=
  if (binaryIntegerLiteral s).1 then binaryIntegerLiteral s
  else if (octalIntegerLiteral (binaryIntegerLiteral s).2).1 then
    octalIntegerLiteral (binaryIntegerLiteral s).2
  else hexIntegerLiteral (octalIntegerLiteral (binaryIntegerLiteral s).2).2

/-- Leading-zero trimming loop of decimalDigits: advance past a zero as
long as another character follows, so a lone final zero is kept. -/
def skipLeadingZeros : List Nat → List Nat
  | c :: rest =>
      if c = 48 then (if rest = [] then [48] else skipLeadingZeros rest)
      else c :: rest
  | [] => []

/-- decimalDigits from the source: trim leading zeros (keeping one if the
input is just zeros), then require and build a decimal digit run. -/
def decimalDigits (s : PState) : Bool × PState :=
  match skipLeadingZeros s.rem with
  | c :: rest =>
      if c ∈ decDigitChars then
        (decide ((buildDigits decDigitChars (c :: rest) s.digits).2 ≠ []),
         PState.mk (buildDigits decDigitChars (c :: rest) s.digits).1 10
           (buildDigits decDigitChars (c :: rest) s.digits).2)
      else (false, PState.mk (c :: rest) s.radix s.digits)
  | [] => (false, PState.mk [] s.radix s.digits)

/-- checkEnd from the source: parsing succeeded if there are no more
characters to be consumed, or if the next character is a NUL terminator. -/
def checkEnd (rem : List Nat) : Bool :=
  match rem with
  | [] => true
  | c :: _ => decide (c = 0)

/-- Decimal branch of the goal function: the parser state has been restored
to the start of the (trimmed) input g whose first character is c; an
optional sign is eaten (the source sets the sign from *ch, the first
character, which at this point is the matched sign character), then a
decimal digit run is required, then end of input. -/
def goalDecimalSign (g : List Nat) : Option Nat × List Nat :=
  match g with
  | ch :: rest =>
      if ch = 43 ∨ ch = 45 then (Option.some ch, rest) else (Option.none, g)
  | [] => (Option.none, g)

/-- Sign recorded by the goal function when a sign character was eaten: the
source sets it from the first character of the (trimmed) input, which at
that point is the matched sign character. -/
def signOf (sr : Option Nat) (c : Nat) : ParsedSign :=
  match sr with
  | Option.some _ => if c = 43 then ParsedSign.Plus else ParsedSign.Minus
  | Option.none => ParsedSign.None

def goalDecimal (g : List Nat) (c : Nat) (radix0 : Nat) :
    Except String (Nat × List Nat × ParsedSign) :=
  if (decimalDigits (PState.mk (goalDecimalSign g).2 radix0 [])).1 then
    (if checkEnd (decimalDigits (PState.mk (goalDecimalSign g).2 radix0 [])).2.rem then
      Except.ok ((decimalDigits (PState.mk (goalDecimalSign g).2 radix0 [])).2.radix,
        (decimalDigits (PState.mk (goalDecimalSign g).2 radix0 [])).2.digits,
        signOf (goalDecimalSign g).1 c)
    else Except.error "trailing data in decimal literal")
  else Except.error "invalid bigint literal"

/-- goal from the source (StringIntegerLiteralParser::goal), on the trimmed
input: empty input denotes 0; a leading 0 tries the non-decimal grammars and
on success requires end of input; otherwise (or when the non-decimal attempt
fails, after restoring the cursor) an optional sign and a decimal run are
parsed. -/
def goal (g : List Nat) : Except String (Nat × List Nat × ParsedSign) :=
  match g with
  | [] => Except.ok (10, [48], ParsedSign.None)
  | c :: rest =>
      if c = 48 then
        (if (nonDecimalIntegerLiteral (PState.mk rest 0 [])).1 then
          (if checkEnd (nonDecimalIntegerLiteral (PState.mk rest 0 [])).2.rem then
            Except.ok ((nonDecimalIntegerLiteral (PState.mk rest 0 [])).2.radix,
              (nonDecimalIntegerLiteral (PState.mk rest 0 [])).2.digits, ParsedSign.None)
          else Except.error "trailing data in non-decimal literal")
        else goalDecimal g c (nonDecimalIntegerLiteral (PState.mk rest 0 [])).2.radix)
      else goalDecimal g c 0

/-- getStringIntegerLiteralDigitsAndSign from the source: construct the
StringIntegerLiteralParser (drop one trailing NUL, trim whitespace) and run
its goal function; on success yields (radix, digit characters, sign), on
failure the diagnostic string. -/
def getStringIntegerLiteralDigitsAndSign (src : List Nat) :
    Except String (Nat × List Nat × ParsedSign) :=
  goal (trimInput src)

/-- Classification of the character after a leading 0 of a non-decimal
literal: the radix it selects and the digit code units of that base. -/
def prefixRadix (p : Nat) : Option (Nat × List Nat) :=
  if p = 66 ∨ p = 98 then Option.some (2, binDigitChars)
  else if p = 79 ∨ p = 111 then Option.some (8, octDigitChars)
  else if p = 88 ∨ p = 120 then Option.some (16, hexDigitChars)
  else Option.none

/-- Sign-extension byte determined by a byte sequence: the sign-extension
value of its last byte, 0 for the empty sequence. -/
def byteSignExtOf (r : List Nat) : Nat :=
  getSignExtValueByte (r.getLastD 0)

/-! Lemmas about the canonicalization core. -/

theorem getSignExtValueByte_cases (b : Nat) :
    getSignExtValueByte b = 0 ∨ getSignExtValueByte b = 255 := by
  unfold getSignExtValueByte
  by_cases h : 128 ≤ b <;> simp [h]

theorem getSignExtValueByte_idem (b : Nat) :
    getSignExtValueByte (getSignExtValueByte b) = getSignExtValueByte b := by
  rcases getSignExtValueByte_cases b with h | h <;> rw [h] <;> rfl

theorem dropWhile_replicate_eq (j a : Nat) (q : List Nat) :
    List.dropWhile (fun x => x = a) (List.replicate j a ++ q) =
      List.dropWhile (fun x => x = a) q := by
  induction j with
  | zero => simp
  | succ n ih => simp [List.replicate_succ, List.dropWhile_cons, ih]

theorem takeWhile_eq_replicate (a : Nat) (l : List Nat) :
    l.takeWhile (fun x => x = a) =
      List.replicate (l.takeWhile (fun x => x = a)).length a := by
  apply List.eq_replicate_iff.mpr
  refine ⟨rfl, fun b hb => ?_⟩
  simpa using List.mem_takeWhile_imp hb

theorem headD_dropWhile_ne (a : Nat) (l : List Nat)
    (h : List.dropWhile (fun x => x = a) l ≠ []) :
    (List.dropWhile (fun x => x = a) l).headD 0 ≠ a := by
  have h2 := List.head_dropWhile_not (fun x => x = a) l h
  rw [List.headD_eq_head?, List.head?_eq_head h]
  simpa using h2

theorem dropWhile_length_lt (a : Nat) (q : List Nat)
    (h : q.dropWhile (fun x => x = a) ≠ q) :
    (q.dropWhile (fun x => x = a)).length + 1 ≤ q.length := by
  cases q with
  | nil => simp at h
  | cons c q2 =>
    by_cases hca : c = a
    · rw [List.dropWhile_cons]
      simp only [hca, decide_True, if_true]
      have := (List.dropWhile_sublist (l := q2) (fun x => x = a)).length_le
      simp only [List.length_cons]
      omega
    · exfalso
      apply h
      rw [List.dropWhile_cons]
      simp [hca]

theorem rdropExtra_eq (b : Nat) (tl : List Nat) :
    rdropExtra (b :: tl) =
      (if getSignExtValueByte
            (((b :: tl).dropWhile (fun x => x = getSignExtValueByte b)).headD 0) =
          getSignExtValueByte b
       then (b :: tl).dropWhile (fun x => x = getSignExtValueByte b)
       else getSignExtValueByte b ::
         (b :: tl).dropWhile (fun x => x = getSignExtValueByte b)) := rfl

theorem rdropExtra_decomp (rl : List Nat) :
    rl = List.replicate (rl.length - (rdropExtra rl).length)
          (getSignExtValueByte ((rdropExtra rl).headD 0)) ++ rdropExtra rl := by
  cases rl with
  | nil => simp [rdropExtra]
  | cons b tl =>
    rw [rdropExtra_eq]
    have hdecomp :
        (b :: tl).takeWhile (fun x => x = getSignExtValueByte b) ++
          (b :: tl).dropWhile (fun x => x = getSignExtValueByte b) = b :: tl :=
      List.takeWhile_append_dropWhile _ _
    have htw := takeWhile_eq_replicate (getSignExtValueByte b) (b :: tl)
    have hlen : ((b :: tl).takeWhile (fun x => x = getSignExtValueByte b)).length +
          ((b :: tl).dropWhile (fun x => x = getSignExtValueByte b)).length =
        (b :: tl).length := by
      have hl := congrArg List.length hdecomp
      rw [List.length_append] at hl
      exact hl
    by_cases hc : getSignExtValueByte
        (((b :: tl).dropWhile (fun x => x = getSignExtValueByte b)).headD 0) =
        getSignExtValueByte b
    · rw [if_pos hc, hc]
      rw [show (b :: tl).length -
            ((b :: tl).dropWhile (fun x => x = getSignExtValueByte b)).length =
          ((b :: tl).takeWhile (fun x => x = getSignExtValueByte b)).length by omega]
      rw [← htw]
      exact hdecomp.symm
    · rw [if_neg hc]
      have ht1 : ((b :: tl).takeWhile (fun x => x = getSignExtValueByte b)).length ≠ 0 := by
        intro h0
        have htw0 : (b :: tl).takeWhile (fun x => x = getSignExtValueByte b) = [] :=
          List.length_eq_zero.mp h0
        have hrseq : (b :: tl).dropWhile (fun x => x = getSignExtValueByte b) = b :: tl := by
          conv_rhs => rw [← hdecomp]
          rw [htw0]
          simp
        apply hc
        rw [hrseq]
        show getSignExtValueByte ((b :: tl).headD 0) = getSignExtValueByte b
        rfl
      have hheadd : ((getSignExtValueByte b ::
          (b :: tl).dropWhile (fun x => x = getSignExtValueByte b)).headD 0) =
          getSignExtValueByte b := rfl
      rw [hheadd, getSignExtValueByte_idem b]
      have hcount : (b :: tl).length -
          (getSignExtValueByte b ::
            (b :: tl).dropWhile (fun x => x = getSignExtValueByte b)).length =
          ((b :: tl).takeWhile (fun x => x = getSignExtValueByte b)).length - 1 := by
        simp only [List.length_cons] at hlen ⊢
        omega
      rw [hcount]
      conv_lhs => rw [← hdecomp, htw]
      rw [show ((b :: tl).takeWhile (fun x => x = getSignExtValueByte b)).length =
            (((b :: tl).takeWhile (fun x => x = getSignExtValueByte b)).length - 1) + 1 by
          omega]
      rw [List.replicate_add]
      simp

theorem rdropExtra_idem (rl : List Nat) : rdropExtra (rdropExtra rl) = rdropExtra rl := by
  cases rl with
  | nil => rfl
  | cons b tl =>
    rw [rdropExtra_eq]
    by_cases hc : getSignExtValueByte
        (((b :: tl).dropWhile (fun x => x = getSignExtValueByte b)).headD 0) =
        getSignExtValueByte b
    · rw [if_pos hc]
      cases hrs : (b :: tl).dropWhile (fun x => x = getSignExtValueByte b) with
      | nil => rfl
      | cons x rs2 =>
        have hx : x ≠ getSignExtValueByte b := by
          have hne := headD_dropWhile_ne (getSignExtValueByte b) (b :: tl)
            (by rw [hrs]; simp)
          rw [hrs] at hne
          simpa using hne
        have hcx : getSignExtValueByte x = getSignExtValueByte b := by
          rw [hrs] at hc
          simpa using hc
        rw [rdropExtra_eq x rs2, hcx]
        have hdw : (x :: rs2).dropWhile (fun y => y = getSignExtValueByte b) = x :: rs2 := by
          rw [List.dropWhile_cons]
          simp [hx]
        rw [hdw]
        have hhd : ((x :: rs2).headD 0) = x := rfl
        rw [hhd, hcx]
        simp
    · rw [if_neg hc]
      rw [rdropExtra_eq (getSignExtValueByte b)
        ((b :: tl).dropWhile (fun x => x = getSignExtValueByte b)),
        getSignExtValueByte_idem b]
      have hdw : (getSignExtValueByte b ::
          (b :: tl).dropWhile (fun x => x = getSignExtValueByte b)).dropWhile
          (fun y => y = getSignExtValueByte b) =
          (b :: tl).dropWhile (fun x => x = getSignExtValueByte b) := by
        rw [List.dropWhile_cons]
        simp only [decide_True, if_true]
        cases hrs2 : (b :: tl).dropWhile (fun x => x = getSignExtValueByte b) with
        | nil => rfl
        | cons x rs3 =>
          have hx : x ≠ getSignExtValueByte b := by
            have hne := headD_dropWhile_ne (getSignExtValueByte b) (b :: tl)
              (by rw [hrs2]; simp)
            rw [hrs2] at hne
            simpa using hne
          rw [List.dropWhile_cons]
          simp [hx]
      rw [hdw, if_neg hc]

theorem rdropExtra_min (rl q : List Nat) (j : Nat)
    (h : rl = List.replicate j (getSignExtValueByte (q.headD 0)) ++ q) :
    (rdropExtra rl).length ≤ q.length := by
  cases rl with
  | nil => simp [rdropExtra]
  | cons b tl =>
    rw [rdropExtra_eq]
    by_cases hj : j = 0
    · subst hj
      simp only [List.replicate, List.nil_append] at h
      by_cases hc : getSignExtValueByte
          (((b :: tl).dropWhile (fun x => x = getSignExtValueByte b)).headD 0) =
          getSignExtValueByte b
      · rw [if_pos hc, h]
        exact (List.dropWhile_sublist _).length_le
      · rw [if_neg hc]
        have hne : (b :: tl).dropWhile (fun x => x = getSignExtValueByte b) ≠ b :: tl := by
          intro heq
          apply hc
          rw [heq]
          show getSignExtValueByte b = getSignExtValueByte b
          rfl
        have hlt := dropWhile_length_lt (getSignExtValueByte b) (b :: tl) hne
        rw [h] at hlt ⊢
        simpa using hlt
    · have hj1 : 1 ≤ j := Nat.one_le_iff_ne_zero.mpr hj
      have hrep : List.replicate j (getSignExtValueByte (q.headD 0)) =
          getSignExtValueByte (q.headD 0) ::
            List.replicate (j - 1) (getSignExtValueByte (q.headD 0)) := by
        rw [show j = (j - 1) + 1 by omega]
        rfl
      have hb : b = getSignExtValueByte (q.headD 0) := by
        rw [hrep] at h
        exact (List.cons_eq_cons.mp h).1
      have hd : getSignExtValueByte b = getSignExtValueByte (q.headD 0) := by
        rw [hb, getSignExtValueByte_idem]
      have hrs : (b :: tl).dropWhile (fun x => x = getSignExtValueByte b) =
          q.dropWhile (fun x => x = getSignExtValueByte b) := by
        conv_lhs => rw [h, hd]
        rw [← hd]
        exact dropWhile_replicate_eq j (getSignExtValueByte b) q
      by_cases hc : getSignExtValueByte
          (((b :: tl).dropWhile (fun x => x = getSignExtValueByte b)).headD 0) =
          getSignExtValueByte b
      · rw [if_pos hc, hrs]
        exact (List.dropWhile_sublist _).length_le
      · rw [if_neg hc]
        have hqd : q.dropWhile (fun x => x = getSignExtValueByte b) ≠ q := by
          intro heq
          apply hc
          rw [hrs, heq, hd]
        have hlt := dropWhile_length_lt (getSignExtValueByte b) q hqd
        simp only [List.length_cons]
        rw [hrs]
        omega

theorem mem_rdropExtra (rl : List Nat) (x : Nat) (hx : x ∈ rdropExtra rl) :
    x ∈ rl ∨ x = 0 ∨ x = 255 := by
  cases rl with
  | nil => simp [rdropExtra] at hx
  | cons b tl =>
    rw [rdropExtra_eq] at hx
    by_cases hc : getSignExtValueByte
        (((b :: tl).dropWhile (fun x => x = getSignExtValueByte b)).headD 0) =
        getSignExtValueByte b
    · rw [if_pos hc] at hx
      exact Or.inl (List.Sublist.mem hx (List.dropWhile_sublist _))
    · rw [if_neg hc] at hx
      rcases List.mem_cons.mp hx with hx1 | hx2
      · subst hx1
        rcases getSignExtValueByte_cases b with h | h <;> rw [h] <;> simp
      · exact Or.inl (List.Sublist.mem hx2 (List.dropWhile_sublist _))

theorem getLastD_reverse (l : List Nat) : l.reverse.getLastD 0 = l.headD 0 := by
  rw [List.getLastD_eq_getLast?, List.getLast?_reverse, List.headD_eq_head?]

theorem headD_reverse (l : List Nat) : l.reverse.headD 0 = l.getLastD 0 := by
  rw [List.headD_eq_head?, List.head?_reverse, List.getLastD_eq_getLast?]

theorem byteSignExtOf_reverse (rr : List Nat) :
    byteSignExtOf rr.reverse = getSignExtValueByte (rr.headD 0) := by
  unfold byteSignExtOf
  rw [getLastD_reverse]

theorem dropExtraSignBits_decomp (l : List Nat) :
    l = dropExtraSignBits l ++
      List.replicate (l.length - (dropExtraSignBits l).length)
        (byteSignExtOf (dropExtraSignBits l)) := by
  have h := congrArg List.reverse (rdropExtra_decomp l.reverse)
  rw [List.reverse_reverse, List.reverse_append, List.reverse_replicate] at h
  simp only [List.length_reverse] at h
  unfold dropExtraSignBits
  rw [byteSignExtOf_reverse, List.length_reverse]
  exact h

theorem dropExtraSignBits_idem (l : List Nat) :
    dropExtraSignBits (dropExtraSignBits l) = dropExtraSignBits l := by
  unfold dropExtraSignBits
  rw [List.reverse_reverse, rdropExtra_idem]

theorem dropExtraSignBits_length_le (l : List Nat) :
    (dropExtraSignBits l).length ≤ l.length := by
  have h := congrArg List.length (dropExtraSignBits_decomp l)
  rw [List.length_append, List.length_replicate] at h
  omega

theorem dropExtraSignBits_min (l q : List Nat) (j : Nat)
    (h : l = q ++ List.replicate j (byteSignExtOf q)) :
    (dropExtraSignBits l).length ≤ q.length := by
  have h2 := congrArg List.reverse h
  rw [List.reverse_append, List.reverse_replicate] at h2
  have h3 : l.reverse =
      List.replicate j (getSignExtValueByte (q.reverse.headD 0)) ++ q.reverse := by
    rw [headD_reverse]
    exact h2
  have h4 := rdropExtra_min l.reverse q.reverse j h3
  unfold dropExtraSignBits
  simpa using h4

theorem mem_dropExtraSignBits (l : List Nat) (x : Nat) (hx : x ∈ dropExtraSignBits l) :
    x ∈ l ∨ x = 0 ∨ x = 255 := by
  unfold dropExtraSignBits at hx
  rw [List.mem_reverse] at hx
  rcases mem_rdropExtra l.reverse x hx with h | h
  · exact Or.inl (List.mem_reverse.mp h)
  · exact Or.inr h

theorem byteSignExtOf_append_replicate (r : List Nat) (j : Nat) :
    byteSignExtOf (r ++ List.replicate j (byteSignExtOf r)) = byteSignExtOf r := by
  cases j with
  | zero => simp
  | succ n =>
    unfold byteSignExtOf
    rw [List.getLastD_eq_getLast?, List.getLast?_append_of_ne_nil _ (by simp)]
    simp only [List.getLast?_replicate]
    simp only [Nat.succ_ne_zero, if_false]
    show getSignExtValueByte (getSignExtValueByte (r.getLastD 0)) =
      getSignExtValueByte (r.getLastD 0)
    exact getSignExtValueByte_idem _

theorem byteSignExtOf_dropExtra (l : List Nat) :
    byteSignExtOf (dropExtraSignBits l) = byteSignExtOf l := by
  conv_rhs => rw [dropExtraSignBits_decomp l]
  rw [byteSignExtOf_append_replicate]

theorem dropExtraSignBits_canon_append (r : List Nat) (i : Nat)
    (hr : dropExtraSignBits r = r) :
    dropExtraSignBits (r ++ List.replicate i (byteSignExtOf r)) = r := by
  set A := r ++ List.replicate i (byteSignExtOf r) with hA
  set D := dropExtraSignBits A with hD
  have hmin : D.length ≤ r.length := dropExtraSignBits_min A r i hA
  have hdec : A = D ++ List.replicate (A.length - D.length) (byteSignExtOf D) :=
    dropExtraSignBits_decomp A
  have hAlen : r.length ≤ A.length := by
    rw [hA]
    simp
  have hDlen : D.length ≤ A.length := dropExtraSignBits_length_le A
  have htakeD : A.take D.length = D := by
    conv_lhs => rw [hdec]
    rw [List.take_append_eq_append_take, List.take_length, Nat.sub_self, List.take_zero,
      List.append_nil]
  have htakeR : A.take r.length = r := by
    rw [hA]
    exact List.take_left r _
  have hq : r = D ++ List.replicate (r.length - D.length) (byteSignExtOf D) := by
    conv_lhs => rw [← htakeR]
    conv_lhs => rw [hdec]
    rw [List.take_append_eq_append_take, List.take_of_length_le hmin, List.take_replicate]
    congr 2
    omega
  have hmin2 : (dropExtraSignBits r).length ≤ D.length := dropExtraSignBits_min r D _ hq
  rw [hr] at hmin2
  have heq : D.length = r.length := le_antisymm hmin hmin2
  calc D = A.take D.length := htakeD.symm
    _ = A.take r.length := by rw [heq]
    _ = r := htakeR


/-! Lemmas about the byte view of digit buffers. -/

theorem length_digitsToBytes (ds : List Nat) : (digitsToBytes ds).length = 8 * ds.length := by
  induction ds with
  | nil => rfl
  | cons d rest ih =>
    simp only [digitsToBytes, List.length_append, ih, List.length_cons]
    have h8 : (digitToBytes d).length = 8 := rfl
    omega

theorem digitsToBytes_take (ds : List Nat) (k : Nat) :
    digitsToBytes (ds.take k) = (digitsToBytes ds).take (8 * k) := by
  induction ds generalizing k with
  | nil => simp [digitsToBytes]
  | cons d rest ih =>
    cases k with
    | zero => simp [digitsToBytes]
    | succ k2 =>
      rw [List.take_succ_cons]
      show digitToBytes d ++ digitsToBytes (rest.take k2) = _
      rw [ih k2]
      have h8 : (digitToBytes d).length = 8 := rfl
      conv_rhs =>
        rw [show digitsToBytes (d :: rest) = digitToBytes d ++ digitsToBytes rest from rfl]
      rw [List.take_append_eq_append_take, h8]
      rw [show 8 * (k2 + 1) - 8 = 8 * k2 by omega]
      congr 1
      exact (List.take_of_length_le (by rw [h8]; omega)).symm

theorem bytesLt_digitsToBytes (ds : List Nat) : ∀ b ∈ digitsToBytes ds, b < 256 := by
  induction ds with
  | nil => simp [digitsToBytes]
  | cons d rest ih =>
    intro b hb
    simp only [digitsToBytes, List.mem_append] at hb
    rcases hb with hb | hb
    · simp only [digitToBytes, List.mem_cons, List.not_mem_nil, or_false] at hb
      rcases hb with h | h | h | h | h | h | h | h <;> subst h <;>
        exact Nat.mod_lt _ (by norm_num)
    · exact ih b hb

theorem getLastD_indep (l : List Nat) (h : l ≠ []) (x y : Nat) :
    l.getLastD x = l.getLastD y := by
  rw [List.getLastD_eq_getLast?, List.getLastD_eq_getLast?, List.getLast?_eq_getLast l h]
  simp

theorem digitsToBytes_ne_nil (ds : List Nat) (h : ds ≠ []) : digitsToBytes ds ≠ [] := by
  intro hcon
  have hl := congrArg List.length hcon
  rw [length_digitsToBytes] at hl
  simp only [List.length_nil] at hl
  rcases ds with _ | ⟨d, rest⟩
  · exact h rfl
  · simp at hl

theorem getLastD_digitsToBytes (ds : List Nat) (h : ds ≠ []) :
    (digitsToBytes ds).getLastD 0 = ds.getLastD 0 / 256 ^ 7 % 256 := by
  induction ds with
  | nil => exact absurd rfl h
  | cons d rest ih =>
    by_cases hr : rest = []
    · subst hr
      simp [digitsToBytes, digitToBytes, List.getLastD]
    · have hne : digitsToBytes rest ≠ [] := digitsToBytes_ne_nil rest hr
      show (digitToBytes d ++ digitsToBytes rest).getLastD 0 = _
      rw [List.getLastD_eq_getLast?, List.getLast?_append_of_ne_nil _ hne,
        ← List.getLastD_eq_getLast?]
      rw [ih hr]
      have hds : (d :: rest).getLastD 0 = rest.getLastD 0 := by
        rw [List.getLastD_eq_getLast?, List.getLastD_eq_getLast?,
          show (d :: rest) = [d] ++ rest from rfl, List.getLast?_append_of_ne_nil _ hr]
      rw [hds]

/-! Lemmas about ensureCanonicalResult. -/

theorem dropExtra_take_round (bs : List Nat) (k : Nat)
    (h1 : (dropExtraSignBits bs).length ≤ 8 * k) (h2 : 8 * k ≤ bs.length) :
    dropExtraSignBits (bs.take (8 * k)) = dropExtraSignBits bs := by
  have hdec := dropExtraSignBits_decomp bs
  have hml := dropExtraSignBits_length_le bs
  have htake : bs.take (8 * k) =
      dropExtraSignBits bs ++
        List.replicate (8 * k - (dropExtraSignBits bs).length)
          (byteSignExtOf (dropExtraSignBits bs)) := by
    conv_lhs => rw [hdec]
    rw [List.take_append_eq_append_take, List.take_of_length_le h1, List.take_replicate,
      min_eq_left (by omega :
        8 * k - (dropExtraSignBits bs).length ≤ bs.length - (dropExtraSignBits bs).length)]
  rw [htake]
  exact dropExtraSignBits_canon_append _ _ (dropExtraSignBits_idem bs)

theorem numDigits_le_len (ds : List Nat) :
    numDigitsForSizeInBytes (dropExtraSignBits (digitsToBytes ds)).length ≤ ds.length := by
  have h1 := dropExtraSignBits_length_le (digitsToBytes ds)
  rw [length_digitsToBytes] at h1
  unfold numDigitsForSizeInBytes
  omega

theorem ensure_length (ds : List Nat) :
    (ensureCanonicalResult ds).length =
      numDigitsForSizeInBytes (dropExtraSignBits (digitsToBytes ds)).length := by
  unfold ensureCanonicalResult
  rw [List.length_take]
  exact min_eq_left (numDigits_le_len ds)

theorem ensure_length_le (ds : List Nat) :
    (ensureCanonicalResult ds).length ≤ ds.length := by
  rw [ensure_length]
  exact numDigits_le_len ds

theorem ensureCanonical_bytes (ds : List Nat) :
    dropExtraSignBits (digitsToBytes (ensureCanonicalResult ds)) =
      dropExtraSignBits (digitsToBytes ds) := by
  show dropExtraSignBits (digitsToBytes (ds.take
      (numDigitsForSizeInBytes (dropExtraSignBits (digitsToBytes ds)).length))) = _
  rw [digitsToBytes_take]
  apply dropExtra_take_round
  · unfold numDigitsForSizeInBytes
    omega
  · have h1 := numDigits_le_len ds
    rw [length_digitsToBytes]
    omega

theorem ensureCanonicalResult_idem (ds : List Nat) :
    ensureCanonicalResult (ensureCanonicalResult ds) = ensureCanonicalResult ds := by
  conv_lhs =>
    rw [show ensureCanonicalResult (ensureCanonicalResult ds) =
        (ensureCanonicalResult ds).take
          (numDigitsForSizeInBytes
            (dropExtraSignBits (digitsToBytes (ensureCanonicalResult ds))).length) from rfl]
  rw [ensureCanonical_bytes]
  show (ds.take _).take _ = ds.take _
  rw [List.take_take, Nat.min_self]

/-! Lemmas about digit values and signs. -/

theorem natOfDigits_eq_zero (ds : List Nat) (h : natOfDigits ds = 0) : ∀ d ∈ ds, d = 0 := by
  induction ds with
  | nil => simp
  | cons d rest ih =>
    simp only [natOfDigits] at h
    intro x hx
    rcases List.mem_cons.mp hx with hx1 | hx2
    · omega
    · exact ih (by omega) x hx2

theorem digitsToBytes_zeros (ds : List Nat) (h : ∀ d ∈ ds, d = 0) :
    digitsToBytes ds = List.replicate (8 * ds.length) 0 := by
  induction ds with
  | nil => rfl
  | cons d rest ih =>
    have hd : d = 0 := h d (by simp)
    subst hd
    simp only [digitsToBytes, List.length_cons]
    rw [ih (fun x hx => h x (by simp [hx]))]
    rw [show 8 * (rest.length + 1) = 8 + 8 * rest.length by omega, List.replicate_add]
    rfl

theorem dropExtra_replicate_zero (j : Nat) : dropExtraSignBits (List.replicate j 0) = [] := by
  unfold dropExtraSignBits
  rw [List.reverse_replicate]
  cases j with
  | zero => rfl
  | succ n =>
    rw [List.replicate_succ, rdropExtra_eq]
    have hd : getSignExtValueByte 0 = 0 := rfl
    rw [hd]
    have hdw : (0 :: List.replicate n 0).dropWhile (fun x => x = 0) = [] := by
      have h0 := dropWhile_replicate_eq (n + 1) 0 ([] : List Nat)
      rw [List.replicate_succ, List.append_nil] at h0
      exact h0
    rw [hdw]
    simp [getSignExtValueByte]

theorem ensure_zero (ds : List Nat) (h : natOfDigits ds = 0) :
    ensureCanonicalResult ds = [] := by
  unfold ensureCanonicalResult
  rw [digitsToBytes_zeros ds (natOfDigits_eq_zero ds h), dropExtra_replicate_zero]
  rfl

theorem natOfDigits_lt (ds : List Nat) (hv : validDigits ds) :
    natOfDigits ds < (2 ^ 64) ^ ds.length := by
  induction ds with
  | nil => simp [natOfDigits]
  | cons d rest ih =>
    have h1 : natOfDigits rest < (2 ^ 64) ^ rest.length :=
      ih (fun x hx => hv x (by simp [hx]))
    have h2 : d < 2 ^ 64 := hv d (by simp)
    simp only [natOfDigits, List.length_cons]
    calc d + 2 ^ 64 * natOfDigits rest < 2 ^ 64 * (natOfDigits rest + 1) := by omega
      _ ≤ 2 ^ 64 * (2 ^ 64) ^ rest.length := Nat.mul_le_mul_left _ h1
      _ = (2 ^ 64) ^ (rest.length + 1) := (pow_succ' (2 ^ 64) rest.length).symm

theorem natOfDigits_concat (xs : List Nat) (d : Nat) :
    natOfDigits (xs ++ [d]) = natOfDigits xs + d * (2 ^ 64) ^ xs.length := by
  induction xs with
  | nil => simp [natOfDigits]
  | cons x xs ih =>
    rw [show (x :: xs) ++ [d] = x :: (xs ++ [d]) from rfl]
    rw [show natOfDigits (x :: (xs ++ [d])) = x + 2 ^ 64 * natOfDigits (xs ++ [d]) from rfl]
    rw [ih]
    rw [show natOfDigits (x :: xs) = x + 2 ^ 64 * natOfDigits xs from rfl]
    simp only [List.length_cons]
    rw [pow_succ' (2 ^ 64) xs.length]
    ring

theorem isNegative_concat (xs : List Nat) (d : Nat) :
    isNegative (xs ++ [d]) = decide (2 ^ 63 ≤ d) := by
  unfold isNegative
  rw [List.getLast?_concat]

theorem half_le_natOfDigits (ds : List Nat) (h : isNegative ds = true) :
    2 ^ 63 * (2 ^ 64) ^ (ds.length - 1) ≤ natOfDigits ds := by
  rcases List.eq_nil_or_concat ds with rfl | ⟨xs, d, rfl⟩
  · simp [isNegative] at h
  · rw [List.concat_eq_append] at *
    rw [isNegative_concat] at h
    have hd : 2 ^ 63 ≤ d := of_decide_eq_true h
    rw [natOfDigits_concat]
    have hl : (xs ++ [d]).length - 1 = xs.length := by simp
    rw [hl]
    calc 2 ^ 63 * (2 ^ 64) ^ xs.length ≤ d * (2 ^ 64) ^ xs.length :=
        Nat.mul_le_mul_right _ hd
      _ ≤ natOfDigits xs + d * (2 ^ 64) ^ xs.length := Nat.le_add_left _ _

theorem natOfDigits_lt_half (ds : List Nat) (hv : validDigits ds) (hne : ds ≠ [])
    (h : isNegative ds = false) :
    natOfDigits ds < 2 ^ 63 * (2 ^ 64) ^ (ds.length - 1) := by
  rcases List.eq_nil_or_concat ds with rfl | ⟨xs, d, rfl⟩
  · exact absurd rfl hne
  · rw [List.concat_eq_append] at *
    rw [isNegative_concat] at h
    have hd : d < 2 ^ 63 := by
      have := of_decide_eq_false h
      omega
    have hxs : natOfDigits xs < (2 ^ 64) ^ xs.length :=
      natOfDigits_lt xs (fun x hx => hv x (by simp [hx]))
    rw [natOfDigits_concat]
    have hl : (xs ++ [d]).length - 1 = xs.length := by simp
    rw [hl]
    calc natOfDigits xs + d * (2 ^ 64) ^ xs.length <
          (2 ^ 64) ^ xs.length + d * (2 ^ 64) ^ xs.length := by omega
      _ = (d + 1) * (2 ^ 64) ^ xs.length := by ring
      _ ≤ 2 ^ 63 * (2 ^ 64) ^ xs.length := Nat.mul_le_mul_right _ (by omega)

theorem isNegative_iff_half (ds : List Nat) (hv : validDigits ds) (hne : ds ≠ []) :
    isNegative ds = true ↔ 2 ^ 63 * (2 ^ 64) ^ (ds.length - 1) ≤ natOfDigits ds := by
  constructor
  · exact half_le_natOfDigits ds
  · intro h
    by_contra hb
    have hf : isNegative ds = false := by
      cases hiv : isNegative ds
      · rfl
      · exact absurd hiv hb
    exact absurd h (not_le.mpr (natOfDigits_lt_half ds hv hne hf))

theorem length_digitsOfNat (n v : Nat) : (digitsOfNat n v).length = n := by
  induction n generalizing v with
  | zero => rfl
  | succ k ih => simp [digitsOfNat, ih]

theorem validDigits_digitsOfNat (n v : Nat) : validDigits (digitsOfNat n v) := by
  induction n generalizing v with
  | zero => intro d hd; simp [digitsOfNat] at hd
  | succ k ih =>
    intro d hd
    simp only [digitsOfNat, List.mem_cons] at hd
    rcases hd with hd | hd
    · subst hd; exact Nat.mod_lt _ (by norm_num)
    · exact ih _ d hd

theorem natOf_digitsOfNat (n v : Nat) :
    natOfDigits (digitsOfNat n v) = v % (2 ^ 64) ^ n := by
  induction n generalizing v with
  | zero => simp [digitsOfNat, natOfDigits, Nat.mod_one]
  | succ k ih =>
    simp only [digitsOfNat, natOfDigits, ih]
    rw [pow_succ' (2 ^ 64) k]
    exact (Nat.mod_mul).symm

/-! The sign of a buffer is preserved by canonicalization. -/

theorem byteSignExtOf_digitsToBytes (ds : List Nat) (hv : validDigits ds) :
    byteSignExtOf (digitsToBytes ds) = (if isNegative ds then 255 else 0) := by
  rcases List.eq_nil_or_concat ds with rfl | ⟨xs, d, rfl⟩
  · rfl
  · rw [List.concat_eq_append] at *
    have hne : xs ++ [d] ≠ [] := by simp
    unfold byteSignExtOf
    rw [getLastD_digitsToBytes _ hne]
    have hlast : (xs ++ [d]).getLastD 0 = d := by
      rw [List.getLastD_eq_getLast?, List.getLast?_concat]
      rfl
    rw [hlast]
    have hdv : d < 2 ^ 64 := hv d (by simp)
    have hdiv : d / 256 ^ 7 < 256 := by
      rw [Nat.div_lt_iff_lt_mul (by norm_num)]
      calc d < 2 ^ 64 := hdv
        _ = 256 * 256 ^ 7 := by norm_num
    rw [Nat.mod_eq_of_lt hdiv]
    rw [isNegative_concat]
    unfold getSignExtValueByte
    have hiff : 128 ≤ d / 256 ^ 7 ↔ 2 ^ 63 ≤ d := by
      rw [Nat.le_div_iff_mul_le (by norm_num : 0 < 256 ^ 7)]
      constructor <;> intro h <;> [skip; skip] <;> omega
    by_cases hd : 2 ^ 63 ≤ d
    · rw [if_pos (hiff.mpr hd)]
      simp only [decide_eq_true_eq]
      rw [if_pos hd]
    · rw [if_neg (fun hcon => hd (hiff.mp hcon))]
      simp only [decide_eq_true_eq]
      rw [if_neg hd]

theorem isNegative_ensure (ds : List Nat) (hv : validDigits ds) :
    isNegative (ensureCanonicalResult ds) = isNegative ds := by
  have hv2 : validDigits (ensureCanonicalResult ds) := by
    intro d hd
    exact hv d (List.take_subset _ _ hd)
  have h1 := byteSignExtOf_digitsToBytes ds hv
  have h2 := byteSignExtOf_digitsToBytes (ensureCanonicalResult ds) hv2
  have h3 : byteSignExtOf (digitsToBytes (ensureCanonicalResult ds)) =
      byteSignExtOf (digitsToBytes ds) := by
    rw [← byteSignExtOf_dropExtra (digitsToBytes (ensureCanonicalResult ds)),
      ← byteSignExtOf_dropExtra (digitsToBytes ds), ensureCanonical_bytes]
  rw [h1, h2] at h3
  by_cases ha : isNegative (ensureCanonicalResult ds) <;>
    by_cases hb : isNegative ds <;>
    simp [ha, hb] at h3 ⊢

/-! Canonicity of canonicalized results. -/

theorem canonicalDigits_nil : canonicalDigits [] :=
  ⟨rfl, rfl, fun _ => rfl⟩

theorem canonicalDigits_ensure (ds : List Nat) (hv : validDigits ds) :
    canonicalDigits (ensureCanonicalResult ds) := by
  have hv2 : validDigits (ensureCanonicalResult ds) := by
    intro d hd
    exact hv d (List.take_subset _ _ hd)
  refine ⟨?_, ensureCanonicalResult_idem ds, ?_⟩
  · rw [ensureCanonical_bytes]
    exact (ensure_length ds).symm
  · intro hz
    by_cases hneg : isNegative (ensureCanonicalResult ds)
    · exfalso
      unfold bigIntValue at hz
      rw [if_pos hneg] at hz
      have hlt := natOfDigits_lt (ensureCanonicalResult ds) hv2
      have hcast : (natOfDigits (ensureCanonicalResult ds) : Int) <
          ((2 : Int) ^ 64) ^ (ensureCanonicalResult ds).length := by
        exact_mod_cast hlt
      omega
    · unfold bigIntValue at hz
      rw [if_neg hneg] at hz
      have hzn : natOfDigits (ensureCanonicalResult ds) = 0 := by
        omega
      have h1 := ensure_zero (ensureCanonicalResult ds) hzn
      rw [ensureCanonicalResult_idem ds] at h1
      exact h1


/-! Lengths and digit bounds of the APInt primitives. -/

theorem length_tcAdd (a : List Nat) : ∀ (b : List Nat) (c : Nat),
    ((tcAdd a b c).1).length = min a.length b.length := by
  induction a with
  | nil => intro b c; cases b <;> simp [tcAdd]
  | cons x as ih =>
    intro b c
    cases b with
    | nil => simp [tcAdd]
    | cons y bs =>
      simp only [tcAdd, List.length_cons, ih]
      omega

theorem validDigits_tcAdd (a : List Nat) : ∀ (b : List Nat) (c : Nat),
    validDigits ((tcAdd a b c).1) := by
  induction a with
  | nil => intro b c; cases b <;> simp [tcAdd, validDigits]
  | cons x as ih =>
    intro b c
    cases b with
    | nil => simp [tcAdd, validDigits]
    | cons y bs =>
      intro d hd
      simp only [tcAdd, List.mem_cons] at hd
      rcases hd with hd | hd
      · subst hd; exact Nat.mod_lt _ (by norm_num)
      · exact ih bs _ d hd

theorem length_tcSubtract (a : List Nat) : ∀ (b : List Nat) (c : Nat),
    ((tcSubtract a b c).1).length = min a.length b.length := by
  induction a with
  | nil => intro b c; cases b <;> simp [tcSubtract]
  | cons x as ih =>
    intro b c
    cases b with
    | nil => simp [tcSubtract]
    | cons y bs =>
      simp only [tcSubtract, List.length_cons, ih]
      omega

theorem validDigits_tcSubtract (a : List Nat) : ∀ (b : List Nat) (c : Nat),
    validDigits a → validDigits ((tcSubtract a b c).1) := by
  induction a with
  | nil => intro b c _; cases b <;> simp [tcSubtract, validDigits]
  | cons x as ih =>
    intro b c hv
    cases b with
    | nil => simp [tcSubtract, validDigits]
    | cons y bs =>
      intro d hd
      simp only [tcSubtract, List.mem_cons] at hd
      rcases hd with hd | hd
      · subst hd
        have hx : x < 2 ^ 64 := hv x (by simp)
        by_cases hb : x < y + c <;> simp [hb] <;> omega
      · exact ih bs _ (fun z hz => hv z (by simp [hz])) d hd

theorem length_tcAddPart (l : List Nat) : ∀ w : Nat, (tcAddPart l w).length = l.length := by
  induction l with
  | nil => intro w; rfl
  | cons d rest ih => intro w; simp [tcAddPart, ih]

theorem validDigits_tcAddPart (l : List Nat) : ∀ w : Nat, validDigits (tcAddPart l w) := by
  induction l with
  | nil => intro w; simp [tcAddPart, validDigits]
  | cons d rest ih =>
    intro w x hx
    simp only [tcAddPart, List.mem_cons] at hx
    rcases hx with hx | hx
    · subst hx; exact Nat.mod_lt _ (by norm_num)
    · exact ih _ x hx

theorem length_tcSubtractPart (l : List Nat) : ∀ w : Nat,
    (tcSubtractPart l w).length = l.length := by
  induction l with
  | nil => intro w; rfl
  | cons d rest ih => intro w; simp [tcSubtractPart, ih]

theorem validDigits_tcSubtractPart (l : List Nat) : ∀ w : Nat, validDigits l →
    validDigits (tcSubtractPart l w) := by
  induction l with
  | nil => intro w _; simp [tcSubtractPart, validDigits]
  | cons d rest ih =>
    intro w hv x hx
    simp only [tcSubtractPart, List.mem_cons] at hx
    rcases hx with hx | hx
    · subst hx
      have hd : d < 2 ^ 64 := hv d (by simp)
      by_cases hb : d < w <;> simp [hb] <;> omega
    · exact ih _ (fun z hz => hv z (by simp [hz])) x hx

theorem length_tcNegate (ds : List Nat) : (tcNegate ds).length = ds.length := by
  unfold tcNegate
  exact length_digitsOfNat _ _

theorem validDigits_tcNegate (ds : List Nat) : validDigits (tcNegate ds) :=
  validDigits_digitsOfNat _ _

theorem length_tcComplement (ds : List Nat) : (tcComplement ds).length = ds.length := by
  simp [tcComplement]

theorem validDigits_tcComplement (ds : List Nat) : validDigits (tcComplement ds) := by
  intro d hd
  simp only [tcComplement, List.mem_map] at hd
  obtain ⟨x, -, hx⟩ := hd
  omega

theorem getBigIntRefSignExtValue_lt (ds : List Nat) :
    getBigIntRefSignExtValue ds < 2 ^ 64 := by
  unfold getBigIntRefSignExtValue
  cases ds.getLast? with
  | none => norm_num
  | some d =>
    show getSignExtValueDigit d < 2 ^ 64
    unfold getSignExtValueDigit
    split <;> norm_num

theorem validDigits_append (a b : List Nat) (ha : validDigits a) (hb : validDigits b) :
    validDigits (a ++ b) := by
  intro d hd
  rcases List.mem_append.mp hd with h | h
  · exact ha d h
  · exact hb d h

theorem validDigits_replicate (n x : Nat) (hx : x < 2 ^ 64) :
    validDigits (List.replicate n x) := by
  intro d hd
  rw [List.eq_of_mem_replicate hd]
  exact hx

theorem validDigits_take (n : Nat) (l : List Nat) (h : validDigits l) :
    validDigits (l.take n) := by
  intro d hd
  exact h d (List.take_subset n l hd)

theorem validDigits_drop (n : Nat) (l : List Nat) (h : validDigits l) :
    validDigits (l.drop n) := by
  intro d hd
  exact h d (List.drop_subset n l hd)

/-! Structure of additiveOperation results. -/

theorem clampedND_bounds (dstLen rhsLen : Nat) (h : rhsLen ≤ dstLen) :
    rhsLen ≤ clampedND dstLen rhsLen ∧ clampedND dstLen rhsLen ≤ dstLen ∧
      clampedND dstLen rhsLen ≤ rhsLen + 1 := by
  unfold clampedND
  split <;> omega

theorem additiveOperation_fail (op : List Nat → List Nat → Nat → List Nat × Nat)
    (opPart : List Nat → Nat → List Nat) (opPost : List Nat → List Nat)
    (dstBuf lhs rhs : List Nat) (h : dstBuf.length < rhs.length) :
    additiveOperation op opPart opPost dstBuf lhs rhs =
      (OperationStatus.DEST_TOO_SMALL, dstBuf.length, dstBuf) := by
  unfold additiveOperation
  rw [if_pos h]

theorem additiveOperation_succ (op : List Nat → List Nat → Nat → List Nat × Nat)
    (opPart : List Nat → Nat → List Nat) (opPost : List Nat → List Nat)
    (dstBuf lhs rhs : List Nat)
    (hlr : lhs.length ≤ rhs.length) (hcap : rhs.length ≤ dstBuf.length) :
    additiveOperation op opPart opPost dstBuf lhs rhs =
      (OperationStatus.RETURNED,
        (ensureCanonicalResult
          (additiveRes op opPart opPost (clampedND dstBuf.length rhs.length) lhs rhs)).length,
        additiveRes op opPart opPost (clampedND dstBuf.length rhs.length) lhs rhs ++
          dstBuf.drop (clampedND dstBuf.length rhs.length)) := by
  have hb := clampedND_bounds dstBuf.length rhs.length hcap
  unfold additiveOperation
  rw [if_neg (by omega), if_neg (by omega)]

theorem length_additiveRes (op : List Nat → List Nat → Nat → List Nat × Nat)
    (opPart : List Nat → Nat → List Nat) (opPost : List Nat → List Nat)
    (nd : Nat) (lhs rhs : List Nat)
    (hOp : ∀ a b c, ((op a b c).1).length = min a.length b.length)
    (hPart : ∀ l w, (opPart l w).length = l.length)
    (hPost : ∀ l, (opPost l).length = l.length)
    (h1 : lhs.length ≤ nd) (h2 : rhs.length ≤ nd) :
    (additiveRes op opPart opPost nd lhs rhs).length = nd := by
  simp only [additiveRes]
  rw [hPost, List.length_append, hOp, hPart, List.length_take, List.length_drop]
  simp only [List.length_append, List.length_replicate]
  omega


/-! Digit bounds of bytesToDigits. -/

theorem validDigits_bytesToDigits (l : List Nat) :
    (∀ b ∈ l, b < 256) → validDigits (bytesToDigits l) := by
  induction l using bytesToDigits.induct with
  | case1 b0 b1 b2 b3 b4 b5 b6 b7 rest ih =>
    intro h d hd
    rw [show bytesToDigits (b0 :: b1 :: b2 :: b3 :: b4 :: b5 :: b6 :: b7 :: rest) =
        digitOfBytes [b0, b1, b2, b3, b4, b5, b6, b7] :: bytesToDigits rest from rfl] at hd
    rcases List.mem_cons.mp hd with hd | hd
    · subst hd
      have h0 : b0 < 256 := h b0 (by simp)
      have h1 : b1 < 256 := h b1 (by simp)
      have h2 : b2 < 256 := h b2 (by simp)
      have h3 : b3 < 256 := h b3 (by simp)
      have h4 : b4 < 256 := h b4 (by simp)
      have h5 : b5 < 256 := h b5 (by simp)
      have h6 : b6 < 256 := h b6 (by simp)
      have h7 : b7 < 256 := h b7 (by simp)
      show b0 + 256 * (b1 + 256 * (b2 + 256 * (b3 + 256 * (b4 + 256 * (b5 + 256 *
        (b6 + 256 * (b7 + 256 * 0))))))) < 2 ^ 64
      omega
    · exact ih (fun x hx => h x (by simp [hx])) d hd
  | case2 t hno =>
    intro h
    rcases t with _ | ⟨a0, _ | ⟨a1, _ | ⟨a2, _ | ⟨a3, _ | ⟨a4, _ | ⟨a5, _ | ⟨a6, _ |
      ⟨a7, rest⟩⟩⟩⟩⟩⟩⟩⟩ <;>
      first
        | exact (hno a0 a1 a2 a3 a4 a5 a6 a7 rest rfl).elim
        | (intro d hd; simp [bytesToDigits] at hd)

theorem bytesLt_dropExtra (l : List Nat) (h : ∀ b ∈ l, b < 256) :
    ∀ b ∈ dropExtraSignBits l, b < 256 := by
  intro b hb
  rcases mem_dropExtraSignBits l b hb with h1 | h1 | h1
  · exact h b h1
  · subst h1; norm_num
  · subst h1; norm_num

/-! Characterizations of the unary operations. -/

theorem initWithBytes_canonical (dstCap : Nat) (data res : List Nat)
    (hdata : ∀ b ∈ data, b < 256)
    (h : initWithBytes dstCap data = (OperationStatus.RETURNED, res)) :
    canonicalDigits res := by
  unfold initWithBytes at h
  by_cases h1 : dstCap * 8 < data.length
  · rw [if_pos h1] at h
    simp at h
  · rw [if_neg h1] at h
    by_cases h2 : data.length = 0
    · rw [if_pos h2] at h
      simp only [Prod.mk.injEq, true_and] at h
      rw [← h]
      exact canonicalDigits_nil
    · rw [if_neg h2] at h
      simp only [Prod.mk.injEq, true_and] at h
      rw [← h]
      apply canonicalDigits_ensure
      apply validDigits_bytesToDigits
      intro b hb
      rcases List.mem_append.mp hb with hb | hb
      · exact hdata b hb
      · rw [List.eq_of_mem_replicate hb]
        rcases getSignExtValueByte_cases (data.getLastD 0) with hh | hh <;> rw [hh] <;>
          norm_num

theorem unaryMinus_fail (dstBuf src : List Nat) (h : dstBuf.length < src.length) :
    unaryMinus dstBuf src = (OperationStatus.DEST_TOO_SMALL, dstBuf) := by
  unfold unaryMinus initNonCanonicalWithReadOnlyBigInt
  rw [if_pos h]

theorem unaryMinus_eq (dstBuf src : List Nat) (h : src.length ≤ dstBuf.length) :
    unaryMinus dstBuf src =
      (OperationStatus.RETURNED,
        ensureCanonicalResult (tcNegate (src ++
          List.replicate (dstBuf.length - src.length) (getBigIntRefSignExtValue src)))) := by
  unfold unaryMinus initNonCanonicalWithReadOnlyBigInt
  rw [if_neg (by omega)]

theorem unaryNot_fail (dstBuf src : List Nat) (h : dstBuf.length < src.length) :
    unaryNot dstBuf src = (OperationStatus.DEST_TOO_SMALL, dstBuf) := by
  unfold unaryNot initNonCanonicalWithReadOnlyBigInt
  rw [if_pos h]

theorem unaryNot_eq (dstBuf src : List Nat) (h : src.length ≤ dstBuf.length) :
    unaryNot dstBuf src =
      (OperationStatus.RETURNED,
        ensureCanonicalResult (tcComplement (src ++
          List.replicate (dstBuf.length - src.length) (getBigIntRefSignExtValue src)))) := by
  unfold unaryNot initNonCanonicalWithReadOnlyBigInt
  rw [if_neg (by omega)]

/-! Canonicity of additive results. -/

theorem validDigits_additiveRes_add (nd : Nat) (l r : List Nat) :
    validDigits (additiveRes tcAdd tcAddPart id nd l r) := by
  simp only [additiveRes, id_eq]
  exact validDigits_append _ _ (validDigits_tcAdd _ _ _) (validDigits_tcAddPart _ _)

theorem validDigits_additiveRes_sub (nd : Nat) (l r : List Nat) (hv : validDigits l) :
    validDigits (additiveRes tcSubtract tcSubtractPart id nd l r) := by
  have hw : validDigits (l ++
      List.replicate (nd - l.length) (getBigIntRefSignExtValue l)) :=
    validDigits_append _ _ hv (validDigits_replicate _ _ (getBigIntRefSignExtValue_lt l))
  simp only [additiveRes, id_eq]
  apply validDigits_append
  · exact validDigits_tcSubtract _ _ _ (validDigits_take _ _ hw)
  · exact validDigits_tcSubtractPart _ _ (validDigits_drop _ _ hw)

theorem validDigits_additiveRes_subneg (nd : Nat) (l r : List Nat) :
    validDigits (additiveRes tcSubtract tcSubtractPart tcNegate nd l r) := by
  simp only [additiveRes]
  exact validDigits_tcNegate _

theorem additive_take_canonical (op : List Nat → List Nat → Nat → List Nat × Nat)
    (opPart : List Nat → Nat → List Nat) (opPost : List Nat → List Nat)
    (dstBuf l r : List Nat) (nd : Nat) (buf : List Nat)
    (hlr : l.length ≤ r.length)
    (hvres : ∀ k, validDigits (additiveRes op opPart opPost k l r))
    (h : additiveOperation op opPart opPost dstBuf l r =
      (OperationStatus.RETURNED, nd, buf)) :
    canonicalDigits (buf.take nd) := by
  by_cases hcap : dstBuf.length < r.length
  · rw [additiveOperation_fail _ _ _ _ _ _ hcap] at h
    simp at h
  · rw [additiveOperation_succ _ _ _ _ _ _ hlr (by omega)] at h
    simp only [Prod.mk.injEq, true_and] at h
    obtain ⟨hnd, hbuf⟩ := h
    subst hnd
    subst hbuf
    have hlen : (ensureCanonicalResult
        (additiveRes op opPart opPost (clampedND dstBuf.length r.length) l r)).length ≤
        (additiveRes op opPart opPost (clampedND dstBuf.length r.length) l r).length :=
      ensure_length_le _
    rw [List.take_append_eq_append_take, Nat.sub_eq_zero_of_le hlen, List.take_zero,
      List.append_nil]
    have htk : (additiveRes op opPart opPost (clampedND dstBuf.length r.length) l r).take
        (ensureCanonicalResult
          (additiveRes op opPart opPost (clampedND dstBuf.length r.length) l r)).length =
        ensureCanonicalResult
          (additiveRes op opPart opPost (clampedND dstBuf.length r.length) l r) := by
      rw [ensure_length]
      rfl
    rw [htk]
    exact canonicalDigits_ensure _ (hvres _)

/-- Claim C3 counterexample: on the little-endian byte list written as the
claim writes it, dropExtraSignBits of 0x00 0x00 0x00 0xFF is not 0x00 0xFF —
the sequence is already canonical (dropping its most significant byte 0xFF
and sign-extending the remaining zeros would not reproduce it). -/
theorem c3_counterexample : dropExtraSignBits [0, 0, 0, 255] ≠ [0, 255] := by decide

/-- Claim C3 (amended): the spec's concrete example lists the bytes most
significant first, so on little-endian lists it reads
dropExtraSignBits [0xFF, 0x00, 0x00, 0x00] = [0xFF, 0x00]; in general
dropExtraSignBits returns the shortest prefix of its little-endian input
whose sign extension (replicating the sign-extension byte of its last byte,
0 for the empty prefix) reproduces the original sequence, and empty input
yields empty output. -/
theorem c3_dropExtraSignBits_shortest :
    dropExtraSignBits [255, 0, 0, 0] = [255, 0] ∧
    dropExtraSignBits ([] : List Nat) = [] ∧
    ∀ l : List Nat,
      (l = dropExtraSignBits l ++
        List.replicate (l.length - (dropExtraSignBits l).length)
          (byteSignExtOf (dropExtraSignBits l))) ∧
      ∀ q j, l = q ++ List.replicate j (byteSignExtOf q) →
        (dropExtraSignBits l).length ≤ q.length := by
  refine ⟨by decide, rfl, fun l => ⟨dropExtraSignBits_decomp l, fun q j h =>
    dropExtraSignBits_min l q j h⟩⟩

/-- Witness for the amended C3 theorem at a concrete input. -/
theorem c3_witness : (dropExtraSignBits [0, 255]).length ≤ 2 :=
  (c3_dropExtraSignBits_shortest.2.2 [0, 255]).2 [0, 255] 0 (by simp)

/-- Claim C4: initWithBytes returns DEST_TOO_SMALL — with the destination
digit count zeroed — exactly when the data is longer than the destination's
byte capacity; empty data yields RETURNED with the canonical zero (0
digits); otherwise it copies the data bytes, sign-extends the remaining
destination bytes with the sign-extension value of the last copied byte,
canonicalizes, and returns RETURNED. -/
theorem c4_initWithBytes_spec (dstCap : Nat) (data : List Nat) :
    ((initWithBytes dstCap data).1 = OperationStatus.DEST_TOO_SMALL ↔
      dstCap * 8 < data.length) ∧
    (dstCap * 8 < data.length →
      initWithBytes dstCap data = (OperationStatus.DEST_TOO_SMALL, [])) ∧
    (data = [] → initWithBytes dstCap data = (OperationStatus.RETURNED, [])) ∧
    (data ≠ [] → data.length ≤ dstCap * 8 →
      initWithBytes dstCap data =
        (OperationStatus.RETURNED,
          ensureCanonicalResult (bytesToDigits
            (data ++ List.replicate (dstCap * 8 - data.length)
              (getSignExtValueByte (data.getLastD 0)))))) := by
  refine ⟨⟨?_, ?_⟩, ?_, ?_, ?_⟩
  · intro h
    by_contra hc
    unfold initWithBytes at h
    rw [if_neg hc] at h
    by_cases h2 : data.length = 0
    · rw [if_pos h2] at h
      simp at h
    · rw [if_neg h2] at h
      simp at h
  · intro h
    unfold initWithBytes
    rw [if_pos h]
  · intro h
    unfold initWithBytes
    rw [if_pos h]
  · intro h
    subst h
    unfold initWithBytes
    rw [if_neg (by simp), if_pos (show ([] : List Nat).length = 0 from rfl)]
  · intro h1 h2
    unfold initWithBytes
    rw [if_neg (by omega), if_neg (by
      intro hc
      exact h1 (List.length_eq_zero.mp hc))]

/-- Witness for C4 at a concrete input. -/
theorem c4_witness :
    initWithBytes 0 [1] = (OperationStatus.DEST_TOO_SMALL, []) ∧
    initWithBytes 1 [7] =
      (OperationStatus.RETURNED,
        ensureCanonicalResult (bytesToDigits
          ([7] ++ List.replicate (1 * 8 - ([7] : List Nat).length)
            (getSignExtValueByte (([7] : List Nat).getLastD 0))))) :=
  ⟨(c4_initWithBytes_spec 0 [1]).2.1 (by decide),
   (c4_initWithBytes_spec 1 [7]).2.2.2 (by decide) (by decide)⟩


/-- Claim C1: for every mutating operation of the engine (initWithBytes,
fromDouble, unaryMinus, unaryNot, add, subtract) that returns RETURNED, the
destination it produces is canonical: applying dropExtraSignBits to the
little-endian byte view of its numDigits digits and rounding the resulting
byte count up to whole digits gives back exactly numDigits (re-running
ensureCanonicalResult changes nothing), and a result representing zero has
numDigits = 0. -/
theorem c1_mutating_results_canonical :
    (∀ dstCap data res, (∀ b ∈ data, b < 256) →
      initWithBytes dstCap data = (OperationStatus.RETURNED, res) →
      canonicalDigits res) ∧
    (∀ dstCap tmpBytes res, (∀ b ∈ tmpBytes, b < 256) →
      fromDouble dstCap tmpBytes = (OperationStatus.RETURNED, res) →
      canonicalDigits res) ∧
    (∀ dstBuf src res,
      unaryMinus dstBuf src = (OperationStatus.RETURNED, res) →
      canonicalDigits res) ∧
    (∀ dstBuf src res,
      unaryNot dstBuf src = (OperationStatus.RETURNED, res) →
      canonicalDigits res) ∧
    (∀ dstBuf lhs rhs nd buf,
      add dstBuf lhs rhs = (OperationStatus.RETURNED, nd, buf) →
      canonicalDigits (buf.take nd)) ∧
    (∀ dstBuf lhs rhs nd buf, validDigits lhs → validDigits rhs →
      subtract dstBuf lhs rhs = (OperationStatus.RETURNED, nd, buf) →
      canonicalDigits (buf.take nd)) := by
  refine ⟨?_, ?_, ?_, ?_, ?_, ?_⟩
  · intro dstCap data res hb h
    exact initWithBytes_canonical dstCap data res hb h
  · intro dstCap tmpBytes res hb h
    exact initWithBytes_canonical dstCap _ res (bytesLt_dropExtra tmpBytes hb) h
  · intro dstBuf src res h
    by_cases hc : dstBuf.length < src.length
    · rw [unaryMinus_fail _ _ hc] at h
      simp at h
    · rw [unaryMinus_eq _ _ (by omega)] at h
      simp only [Prod.mk.injEq, true_and] at h
      rw [← h]
      exact canonicalDigits_ensure _ (validDigits_tcNegate _)
  · intro dstBuf src res h
    by_cases hc : dstBuf.length < src.length
    · rw [unaryNot_fail _ _ hc] at h
      simp at h
    · rw [unaryNot_eq _ _ (by omega)] at h
      simp only [Prod.mk.injEq, true_and] at h
      rw [← h]
      exact canonicalDigits_ensure _ (validDigits_tcComplement _)
  · intro dstBuf lhs rhs nd buf h
    unfold add at h
    by_cases ho : lhs.length ≤ rhs.length
    · rw [if_pos ho] at h
      exact additive_take_canonical _ _ _ _ _ _ _ _ ho
        (fun k => validDigits_additiveRes_add k lhs rhs) h
    · rw [if_neg ho] at h
      exact additive_take_canonical _ _ _ _ _ _ _ _ (by omega)
        (fun k => validDigits_additiveRes_add k rhs lhs) h
  · intro dstBuf lhs rhs nd buf hvl hvr h
    unfold subtract at h
    by_cases ho : lhs.length ≤ rhs.length
    · rw [if_pos ho] at h
      exact additive_take_canonical _ _ _ _ _ _ _ _ ho
        (fun k => validDigits_additiveRes_sub k lhs rhs hvl) h
    · rw [if_neg ho] at h
      exact additive_take_canonical _ _ _ _ _ _ _ _ (by omega)
        (fun k => validDigits_additiveRes_subneg k rhs lhs) h

/-- Witness for C1 at a concrete input. -/
theorem c1_witness : canonicalDigits [7] :=
  c1_mutating_results_canonical.1 1 [7] [7] (by decide) (by decide)

/-- Claim C2 counterexample: unaryMinus with a 1-digit destination and a
2-digit source returns DEST_TOO_SMALL but leaves the destination's digit
count at 1 (and its contents in place) instead of resetting it to 0. -/
theorem c2_counterexample :
    (unaryMinus [5] [1, 1]).1 = OperationStatus.DEST_TOO_SMALL ∧
    (unaryMinus [5] [1, 1]).2.length ≠ 0 := by decide

/-- Claim C2 (amended): when the destination is too small, initWithBytes and
fromDouble return DEST_TOO_SMALL with the destination digit count reset to
0, while unaryMinus, unaryNot, add and subtract return DEST_TOO_SMALL with
the destination digit count and contents unchanged; in every case no partial
value is written. -/
theorem c2_dest_too_small_behavior :
    (∀ dstCap data, dstCap * 8 < data.length →
      initWithBytes dstCap data = (OperationStatus.DEST_TOO_SMALL, [])) ∧
    (∀ dstCap tmpBytes, dstCap * 8 < (dropExtraSignBits tmpBytes).length →
      fromDouble dstCap tmpBytes = (OperationStatus.DEST_TOO_SMALL, [])) ∧
    (∀ dstBuf src, dstBuf.length < src.length →
      unaryMinus dstBuf src = (OperationStatus.DEST_TOO_SMALL, dstBuf)) ∧
    (∀ dstBuf src, dstBuf.length < src.length →
      unaryNot dstBuf src = (OperationStatus.DEST_TOO_SMALL, dstBuf)) ∧
    (∀ dstBuf lhs rhs, dstBuf.length < max lhs.length rhs.length →
      add dstBuf lhs rhs =
        (OperationStatus.DEST_TOO_SMALL, dstBuf.length, dstBuf)) ∧
    (∀ dstBuf lhs rhs, dstBuf.length < max lhs.length rhs.length →
      subtract dstBuf lhs rhs =
        (OperationStatus.DEST_TOO_SMALL, dstBuf.length, dstBuf)) := by
  refine ⟨?_, ?_, ?_, ?_, ?_, ?_⟩
  · intro dstCap data h
    unfold initWithBytes
    rw [if_pos h]
  · intro dstCap tmpBytes h
    unfold fromDouble initWithBytes
    rw [if_pos h]
  · intro dstBuf src h
    exact unaryMinus_fail dstBuf src h
  · intro dstBuf src h
    exact unaryNot_fail dstBuf src h
  · intro dstBuf lhs rhs h
    unfold add
    by_cases ho : lhs.length ≤ rhs.length
    · rw [if_pos ho]
      exact additiveOperation_fail _ _ _ _ _ _ (by omega)
    · rw [if_neg ho]
      exact additiveOperation_fail _ _ _ _ _ _ (by omega)
  · intro dstBuf lhs rhs h
    unfold subtract
    by_cases ho : lhs.length ≤ rhs.length
    · rw [if_pos ho]
      exact additiveOperation_fail _ _ _ _ _ _ (by omega)
    · rw [if_neg ho]
      exact additiveOperation_fail _ _ _ _ _ _ (by omega)

/-- Witness for the amended C2 theorem at concrete inputs. -/
theorem c2_witness :
    initWithBytes 0 [1] = (OperationStatus.DEST_TOO_SMALL, []) ∧
    unaryMinus [5] [1, 1] = (OperationStatus.DEST_TOO_SMALL, [5]) :=
  ⟨c2_dest_too_small_behavior.1 0 [1] (by decide),
   c2_dest_too_small_behavior.2.2.1 [5] [1, 1] (by decide)⟩

/-! Frame property of the generic additive routine. -/

theorem additive_frame (op : List Nat → List Nat → Nat → List Nat × Nat)
    (opPart : List Nat → Nat → List Nat) (opPost : List Nat → List Nat)
    (dstBuf l r : List Nat)
    (hlr : l.length ≤ r.length) (hcap : r.length ≤ dstBuf.length)
    (hOp : ∀ a b c, ((op a b c).1).length = min a.length b.length)
    (hPart : ∀ l2 w, (opPart l2 w).length = l2.length)
    (hPost : ∀ l2, (opPost l2).length = l2.length) :
    (additiveOperation op opPart opPost dstBuf l r).1 = OperationStatus.RETURNED ∧
    (additiveOperation op opPart opPost dstBuf l r).2.2.length = dstBuf.length ∧
    (additiveOperation op opPart opPost dstBuf l r).2.2.drop (r.length + 1) =
      dstBuf.drop (r.length + 1) := by
  have hb := clampedND_bounds dstBuf.length r.length hcap
  rw [additiveOperation_succ _ _ _ _ _ _ hlr hcap]
  have hR : (additiveRes op opPart opPost (clampedND dstBuf.length r.length) l r).length =
      clampedND dstBuf.length r.length :=
    length_additiveRes _ _ _ _ _ _ hOp hPart hPost (by omega) (by omega)
  refine ⟨rfl, ?_, ?_⟩
  · simp only [List.length_append, List.length_drop, hR]
    omega
  · show (additiveRes op opPart opPost (clampedND dstBuf.length r.length) l r ++
      dstBuf.drop (clampedND dstBuf.length r.length)).drop (r.length + 1) = _
    rw [List.drop_append_eq_append_drop, hR]
    rw [List.drop_eq_nil_of_le (by omega), List.nil_append, List.drop_drop]
    congr 1
    omega

/-- Claim C9: when the destination digit count is at least
max(lhs, rhs).numDigits, add and subtract succeed, writing only to digit
positions strictly below max + 1: the destination buffer keeps its length
and every digit at or beyond index max + 1 holds its previous value;
otherwise they return DEST_TOO_SMALL. -/
theorem c9_additive_frame (dstBuf lhs rhs : List Nat) :
    (max lhs.length rhs.length ≤ dstBuf.length →
      (add dstBuf lhs rhs).1 = OperationStatus.RETURNED ∧
      (add dstBuf lhs rhs).2.2.length = dstBuf.length ∧
      (add dstBuf lhs rhs).2.2.drop (max lhs.length rhs.length + 1) =
        dstBuf.drop (max lhs.length rhs.length + 1) ∧
      (subtract dstBuf lhs rhs).1 = OperationStatus.RETURNED ∧
      (subtract dstBuf lhs rhs).2.2.length = dstBuf.length ∧
      (subtract dstBuf lhs rhs).2.2.drop (max lhs.length rhs.length + 1) =
        dstBuf.drop (max lhs.length rhs.length + 1)) ∧
    (dstBuf.length < max lhs.length rhs.length →
      (add dstBuf lhs rhs).1 = OperationStatus.DEST_TOO_SMALL ∧
      (subtract dstBuf lhs rhs).1 = OperationStatus.DEST_TOO_SMALL) := by
  constructor
  · intro hcap
    by_cases ho : lhs.length ≤ rhs.length
    · have hmax : max lhs.length rhs.length = rhs.length := max_eq_right ho
      rw [hmax] at hcap ⊢
      unfold add subtract
      rw [if_pos ho, if_pos ho]
      have hadd := additive_frame tcAdd tcAddPart id dstBuf lhs rhs ho hcap
        length_tcAdd length_tcAddPart (fun _ => rfl)
      have hsub := additive_frame tcSubtract tcSubtractPart id dstBuf lhs rhs ho hcap
        length_tcSubtract length_tcSubtractPart (fun _ => rfl)
      exact ⟨hadd.1, hadd.2.1, hadd.2.2, hsub.1, hsub.2.1, hsub.2.2⟩
    · have ho2 : rhs.length ≤ lhs.length := le_of_not_le ho
      have hmax : max lhs.length rhs.length = lhs.length := max_eq_left ho2
      rw [hmax] at hcap ⊢
      unfold add subtract
      rw [if_neg ho, if_neg ho]
      have hadd := additive_frame tcAdd tcAddPart id dstBuf rhs lhs ho2 hcap
        length_tcAdd length_tcAddPart (fun _ => rfl)
      have hsub := additive_frame tcSubtract tcSubtractPart tcNegate dstBuf rhs lhs ho2 hcap
        length_tcSubtract length_tcSubtractPart length_tcNegate
      exact ⟨hadd.1, hadd.2.1, hadd.2.2, hsub.1, hsub.2.1, hsub.2.2⟩
  · intro hcap
    constructor
    · unfold add
      by_cases ho : lhs.length ≤ rhs.length
      · rw [if_pos ho, additiveOperation_fail _ _ _ _ _ _ (by omega)]
      · rw [if_neg ho, additiveOperation_fail _ _ _ _ _ _ (by omega)]
    · unfold subtract
      by_cases ho : lhs.length ≤ rhs.length
      · rw [if_pos ho, additiveOperation_fail _ _ _ _ _ _ (by omega)]
      · rw [if_neg ho, additiveOperation_fail _ _ _ _ _ _ (by omega)]

/-- Witness for C9 at a concrete input. -/
theorem c9_witness :
    (add [3, 4, 5] [1] [2]).1 = OperationStatus.RETURNED ∧
    (add [3, 4, 5] [1] [2]).2.2.drop 2 = ([3, 4, 5] : List Nat).drop 2 :=
  ⟨((c9_additive_frame [3, 4, 5] [1] [2]).1 (by decide)).1,
   ((c9_additive_frame [3, 4, 5] [1] [2]).1 (by decide)).2.2.1⟩


/-! Sign facts for unaryMinus. -/

theorem ne_nil_of_isNegative (src : List Nat) (h : isNegative src = true) : src ≠ [] := by
  intro h0
  subst h0
  simp [isNegative] at h

theorem getBigIntRefSignExtValue_of_neg (src : List Nat) (h : isNegative src = true) :
    getBigIntRefSignExtValue src = 2 ^ 64 - 1 := by
  unfold isNegative at h
  unfold getBigIntRefSignExtValue
  cases hl : src.getLast? with
  | none =>
    rw [hl] at h
    simp at h
  | some d =>
    rw [hl] at h
    simp only [decide_eq_true_eq] at h
    show (if 2 ^ 63 ≤ d then 2 ^ 64 - 1 else 0) = 2 ^ 64 - 1
    rw [if_pos h]

theorem bigIntValue_nil : bigIntValue [] = 0 := by
  simp [bigIntValue, natOfDigits, isNegative]

theorem tcNegate_natOf (ds : List Nat) (hv : validDigits ds) (hne : natOfDigits ds ≠ 0) :
    natOfDigits (tcNegate ds) = (2 ^ 64) ^ ds.length - natOfDigits ds := by
  have hvlt : natOfDigits ds < (2 ^ 64) ^ ds.length := natOfDigits_lt ds hv
  unfold tcNegate
  rw [natOf_digitsOfNat]
  have hM : (2 : Nat) ^ (64 * ds.length) = (2 ^ 64) ^ ds.length := pow_mul 2 64 ds.length
  rw [hM, Nat.mod_eq_of_lt hvlt]
  have hlt : (2 ^ 64) ^ ds.length - natOfDigits ds < (2 ^ 64) ^ ds.length := by omega
  rw [Nat.mod_eq_of_lt hlt]
  exact Nat.mod_eq_of_lt hlt

/-- Claim C8: unaryMinusResultSize is src.numDigits for non-negative src and
src.numDigits + 1 for negative src; and for every canonical src and a
destination of exactly that capacity, unaryMinus returns RETURNED, produces
a canonical result, and (unless src represents zero) the result's sign
differs from src's. -/
theorem c8_unaryMinus_spec (src : List Nat) (hv : validDigits src)
    (hcanon : ensureCanonicalResult src = src) :
    unaryMinusResultSize src =
      (if isNegative src then src.length + 1 else src.length) ∧
    ∀ dstBuf : List Nat, dstBuf.length = unaryMinusResultSize src →
      (unaryMinus dstBuf src).1 = OperationStatus.RETURNED ∧
      canonicalDigits (unaryMinus dstBuf src).2 ∧
      (bigIntValue src ≠ 0 →
        isNegative (unaryMinus dstBuf src).2 ≠ isNegative src) := by
  constructor
  · by_cases hn : isNegative src <;> simp [unaryMinusResultSize, hn]
  · intro dstBuf hdst
    have hsize : src.length ≤ dstBuf.length := by
      rw [hdst]
      unfold unaryMinusResultSize
      split <;> omega
    rw [unaryMinus_eq dstBuf src hsize]
    refine ⟨rfl, canonicalDigits_ensure _ (validDigits_tcNegate _), ?_⟩
    intro hval
    by_cases hneg : isNegative src = true
    · -- src negative: one extra digit, result non-negative
      have hne : src ≠ [] := ne_nil_of_isNegative src hneg
      have hlen1 : 1 ≤ src.length := List.length_pos.mpr hne
      have hdst2 : dstBuf.length = src.length + 1 := by
        rw [hdst]
        simp [unaryMinusResultSize, hneg]
      have hwork : src ++
          List.replicate (dstBuf.length - src.length) (getBigIntRefSignExtValue src) =
          src ++ [2 ^ 64 - 1] := by
        rw [getBigIntRefSignExtValue_of_neg src hneg,
          show dstBuf.length - src.length = 1 by omega]
        rfl
      rw [hwork]
      have hvw : validDigits (src ++ [2 ^ 64 - 1]) :=
        validDigits_append _ _ hv (by intro d hd; simp at hd; omega)
      have hQpos : 0 < (2 ^ 64 : Nat) ^ src.length := pow_pos (by norm_num) _
      have hQ1pos : 0 < (2 ^ 64 : Nat) ^ (src.length - 1) := pow_pos (by norm_num) _
      have hvhalf := half_le_natOfDigits src hneg
      have hvpos : 0 < natOfDigits src := by
        have h1 := hvhalf
        have h2 := hQ1pos
        nlinarith
      have hvlt : natOfDigits src < (2 ^ 64) ^ src.length := natOfDigits_lt src hv
      have hcat : natOfDigits (src ++ [2 ^ 64 - 1]) =
          natOfDigits src + (2 ^ 64 - 1) * (2 ^ 64) ^ src.length :=
        natOfDigits_concat src (2 ^ 64 - 1)
      have hlenw : (src ++ [2 ^ 64 - 1]).length = src.length + 1 := by simp
      have hMQ : ((2 : Nat) ^ 64) ^ (src.length + 1) = 2 ^ 64 * (2 ^ 64) ^ src.length :=
        pow_succ' (2 ^ 64) src.length
      have hwpos : natOfDigits (src ++ [2 ^ 64 - 1]) ≠ 0 := by
        rw [hcat]
        omega
      have hnat : natOfDigits (tcNegate (src ++ [2 ^ 64 - 1])) =
          (2 ^ 64) ^ src.length - natOfDigits src := by
        rw [tcNegate_natOf _ hvw hwpos, hlenw, hcat, hMQ]
        omega
      have hres : isNegative (tcNegate (src ++ [2 ^ 64 - 1])) = false := by
        by_contra hcon
        have hb : isNegative (tcNegate (src ++ [2 ^ 64 - 1])) = true := by
          cases hx : isNegative (tcNegate (src ++ [2 ^ 64 - 1]))
          · exact absurd hx hcon
          · rfl
        have hnn : tcNegate (src ++ [2 ^ 64 - 1]) ≠ [] := by
          intro hc
          have := congrArg List.length hc
          rw [length_tcNegate, hlenw] at this
          simp at this
        have h2 := (isNegative_iff_half _ (validDigits_tcNegate _) hnn).mp hb
        rw [hnat, length_tcNegate, hlenw] at h2
        simp only [Nat.add_sub_cancel] at h2
        omega
      rw [isNegative_ensure _ (validDigits_tcNegate _), hres, hneg]
      simp
    · -- src non-negative and nonzero: result negative
      have hnegf : isNegative src = false := by
        cases hx : isNegative src
        · rfl
        · exact absurd hx hneg
      have hne : src ≠ [] := by
        intro h0
        subst h0
        exact hval bigIntValue_nil
      have hlen1 : 1 ≤ src.length := List.length_pos.mpr hne
      have hv0 : natOfDigits src ≠ 0 := by
        intro h0
        apply hval
        unfold bigIntValue
        rw [h0, hnegf]
        simp
      have hdst2 : dstBuf.length = src.length := by
        rw [hdst]
        simp [unaryMinusResultSize, hnegf]
      have hwork : src ++
          List.replicate (dstBuf.length - src.length) (getBigIntRefSignExtValue src) =
          src := by
        rw [show dstBuf.length - src.length = 0 by omega]
        simp
      rw [hwork]
      have hvlt : natOfDigits src < (2 ^ 64) ^ src.length := natOfDigits_lt src hv
      have hhalf := natOfDigits_lt_half src hv hne hnegf
      have hnat : natOfDigits (tcNegate src) =
          (2 ^ 64) ^ src.length - natOfDigits src := tcNegate_natOf src hv hv0
      have hnn : tcNegate src ≠ [] := by
        intro hc
        have := congrArg List.length hc
        rw [length_tcNegate] at this
        simp only [List.length_nil] at this
        omega
      have hres : isNegative (tcNegate src) = true := by
        rw [isNegative_iff_half _ (validDigits_tcNegate _) hnn, hnat, length_tcNegate]
        have hMQ : ((2 : Nat) ^ 64) ^ src.length =
            2 ^ 64 * (2 ^ 64) ^ (src.length - 1) := by
          rw [show src.length = src.length - 1 + 1 by omega, pow_succ']
          simp
        omega
      rw [isNegative_ensure _ (validDigits_tcNegate _), hres, hnegf]
      simp

/-- Witness for C8 at a concrete input. -/
theorem c8_witness :
    (unaryMinus [9] [1]).1 = OperationStatus.RETURNED ∧
    isNegative (unaryMinus [9] [1]).2 ≠ isNegative [1] :=
  ⟨(((c8_unaryMinus_spec [1] (by unfold validDigits; decide) (by decide)).2 [9]
      (by decide)).1),
   (((c8_unaryMinus_spec [1] (by unfold validDigits; decide) (by decide)).2 [9]
      (by decide)).2.2 (by decide))⟩


/-! Comparison lemmas. -/

theorem cmpBE_self (l : List Nat) : cmpBE l l = 0 := by
  induction l with
  | nil => rfl
  | cons x xs ih => simp [cmpBE, ih]

theorem cmpBE_antisymm (a : List Nat) : ∀ b : List Nat, cmpBE a b = -cmpBE b a := by
  induction a with
  | nil => intro b; cases b <;> simp [cmpBE]
  | cons x as ih =>
    intro b
    cases b with
    | nil => simp [cmpBE]
    | cons y bs =>
      simp only [cmpBE]
      by_cases hxy : x = y
      · subst hxy
        simp [ih bs]
      · have hyx : y ≠ x := Ne.symm hxy
        rw [if_pos hxy, if_pos hyx]
        by_cases hlt : x < y
        · rw [if_pos hlt, if_neg (by omega)]
        · rw [if_neg hlt, if_pos (by omega)]
          norm_num

theorem cmpBE_eq_zero (a : List Nat) : ∀ b : List Nat, a.length = b.length →
    cmpBE a b = 0 → a = b := by
  induction a with
  | nil =>
    intro b hlen _
    cases b with
    | nil => rfl
    | cons y bs => simp at hlen
  | cons x as ih =>
    intro b hlen h
    cases b with
    | nil => simp at hlen
    | cons y bs =>
      simp only [cmpBE] at h
      by_cases hxy : x = y
      · subst hxy
        rw [if_neg (by simp)] at h
        rw [ih bs (by simpa using hlen) h]
      · rw [if_pos hxy] at h
        by_cases hlt : x < y
        · rw [if_pos hlt] at h
          exact absurd h (by norm_num)
        · rw [if_neg hlt] at h
          exact absurd h (by norm_num)

theorem compare_eq_zero (x y : List Nat) (h : compare x y = 0) : x = y := by
  unfold compare at h
  by_cases hs : isNegative x ≠ isNegative y
  · rw [if_pos hs] at h
    by_cases hx : isNegative x
    · rw [if_pos hx] at h
      exact absurd h (by norm_num)
    · rw [if_neg hx] at h
      exact absurd h (by norm_num)
  · rw [if_neg hs] at h
    by_cases hl : x.length = y.length
    · rw [if_pos hl] at h
      unfold tcCompare at h
      have heq := cmpBE_eq_zero x.reverse y.reverse (by simp [hl]) h
      have h2 := congrArg List.reverse heq
      simpa using h2
    · rw [if_neg hl] at h
      by_cases hneg : isNegative x
      · rw [if_pos hneg] at h
        by_cases hlt : x.length < y.length
        · rw [if_pos hlt] at h
          exact absurd h (by norm_num)
        · rw [if_neg hlt] at h
          exact absurd h (by norm_num)
      · rw [if_neg hneg] at h
        by_cases hlt : x.length < y.length
        · rw [if_pos hlt] at h
          exact absurd h (by norm_num)
        · rw [if_neg hlt] at h
          exact absurd h (by norm_num)

theorem compare_antisymm (x y : List Nat) : compare x y = -compare y x := by
  unfold compare tcCompare
  by_cases hxy : isNegative x = isNegative y
  · have hC1 : ¬(isNegative x ≠ isNegative y) := by simp [hxy]
    have hC2 : ¬(isNegative y ≠ isNegative x) := by simp [hxy]
    by_cases hlen : x.length = y.length
    · rw [if_neg hC1, if_neg hC2, if_pos hlen, if_pos hlen.symm]
      exact cmpBE_antisymm x.reverse y.reverse
    · rw [if_neg hC1, if_neg hC2, if_neg hlen,
        if_neg (show ¬(y.length = x.length) from fun hc => hlen hc.symm), ← hxy]
      by_cases hneg : isNegative x
      · rw [if_pos hneg, if_pos hneg]
        by_cases hlt : x.length < y.length
        · rw [if_pos hlt, if_neg (by omega)]
          norm_num
        · rw [if_neg hlt, if_pos (by omega)]
      · rw [if_neg hneg, if_neg hneg]
        by_cases hlt : x.length < y.length
        · rw [if_pos hlt, if_neg (by omega)]
        · rw [if_neg hlt, if_pos (by omega)]
          norm_num
  · rw [if_pos hxy, if_pos (fun hc => hxy hc.symm)]
    by_cases hx : isNegative x
    · have hy : isNegative y = false := by
        cases hyv : isNegative y
        · rfl
        · exact absurd (hx.trans hyv.symm) hxy
      rw [if_pos hx, if_neg (by rw [hy]; exact Bool.false_ne_true)]
    · have hxf : isNegative x = false := by
        cases hxv : isNegative x
        · rfl
        · exact absurd hxv hx
      have hy : isNegative y = true := by
        cases hyv : isNegative y
        · exact absurd (hxf.trans hyv.symm) hxy
        · rfl
      rw [if_neg hx, if_pos hy]
      norm_num

/-- Claim C5: for all BigInt digit sequences x, y, z, compare is
antisymmetric (compare x y = -compare y x), reflexively zero
(compare x x = 0), and transitive at zero (compare x y = 0 and
compare y z = 0 imply compare x z = 0). -/
theorem c5_compare_properties (x y z : List Nat) :
    compare x y = -compare y x ∧
    compare x x = 0 ∧
    (compare x y = 0 → compare y z = 0 → compare x z = 0) := by
  refine ⟨compare_antisymm x y, ?_, ?_⟩
  · unfold compare
    rw [if_neg (by simp), if_pos rfl]
    unfold tcCompare
    exact cmpBE_self x.reverse
  · intro h1 h2
    rw [compare_eq_zero x y h1, compare_eq_zero y z h2]
    unfold compare
    rw [if_neg (by simp), if_pos rfl]
    unfold tcCompare
    exact cmpBE_self z.reverse

/-- Witness for C5 at concrete inputs. -/
theorem c5_witness : compare [1] [3] = 0 → compare [3] [7] = 0 → compare [1] [7] = 0 :=
  (c5_compare_properties [1] [3] [7]).2.2


/-! Parser run lemmas. -/

theorem buildDigits_run (D : List Nat) (ds : List Nat) : ∀ (rest acc : List Nat),
    (∀ c ∈ ds, c ∈ D) → (∀ c, rest.head? = Option.some c → c ∉ D) →
    buildDigits D (ds ++ rest) acc = (rest, acc ++ ds) := by
  induction ds with
  | nil =>
    intro rest acc _ hrest
    cases rest with
    | nil => simp [buildDigits]
    | cons c r2 =>
      have hc : c ∉ D := hrest c rfl
      simp [buildDigits, hc]
  | cons d ds2 ih =>
    intro rest acc hds hrest
    have hd : d ∈ D := hds d (by simp)
    show buildDigits D (d :: (ds2 ++ rest)) acc = _
    rw [show buildDigits D (d :: (ds2 ++ rest)) acc =
        (if d ∈ D then buildDigits D (ds2 ++ rest) (acc ++ [d])
        else (d :: (ds2 ++ rest), acc)) from rfl]
    rw [if_pos hd, ih rest (acc ++ [d]) (fun c hc => hds c (by simp [hc])) hrest]
    simp

theorem prefixRadix_cases (p r : Nat) (D : List Nat)
    (h : prefixRadix p = Option.some (r, D)) :
    ((p = 66 ∨ p = 98) ∧ r = 2 ∧ D = binDigitChars) ∨
    ((p = 79 ∨ p = 111) ∧ r = 8 ∧ D = octDigitChars) ∨
    ((p = 88 ∨ p = 120) ∧ r = 16 ∧ D = hexDigitChars) := by
  unfold prefixRadix at h
  by_cases h1 : p = 66 ∨ p = 98
  · rw [if_pos h1] at h
    simp only [Option.some.injEq, Prod.mk.injEq] at h
    exact Or.inl ⟨h1, h.1.symm, h.2.symm⟩
  · rw [if_neg h1] at h
    by_cases h2 : p = 79 ∨ p = 111
    · rw [if_pos h2] at h
      simp only [Option.some.injEq, Prod.mk.injEq] at h
      exact Or.inr (Or.inl ⟨h2, h.1.symm, h.2.symm⟩)
    · rw [if_neg h2] at h
      by_cases h3 : p = 88 ∨ p = 120
      · rw [if_pos h3] at h
        simp only [Option.some.injEq, Prod.mk.injEq] at h
        exact Or.inr (Or.inr ⟨h3, h.1.symm, h.2.symm⟩)
      · rw [if_neg h3] at h
        simp at h

theorem prefixChar_not_digit (p r : Nat) (D : List Nat)
    (hp : prefixRadix p = Option.some (r, D)) :
    p ≠ 48 ∧ p ∉ decDigitChars := by
  rcases prefixRadix_cases p r D hp with ⟨h, -, -⟩ | ⟨h, -, -⟩ | ⟨h, -, -⟩ <;>
    rcases h with h | h <;> subst h <;> decide

theorem binary_run (p : Nat) (tl : List Nat) (hp : p = 66 ∨ p = 98)
    (ds rest : List Nat) (htl : tl = ds ++ rest) (hne : ds ≠ [])
    (hds : ∀ c ∈ ds, c ∈ binDigitChars)
    (hrest : ∀ c, rest.head? = Option.some c → c ∉ binDigitChars) :
    binaryIntegerLiteral (PState.mk (p :: tl) 0 []) = (true, PState.mk rest 2 ds) := by
  subst htl
  show (if p = 66 ∨ p = 98 then
      (decide ((buildDigits binDigitChars (ds ++ rest) []).2 ≠ []),
       PState.mk (buildDigits binDigitChars (ds ++ rest) []).1 2
         (buildDigits binDigitChars (ds ++ rest) []).2)
    else (false, PState.mk (p :: (ds ++ rest)) 0 [])) = (true, PState.mk rest 2 ds)
  rw [if_pos hp, buildDigits_run binDigitChars ds rest [] hds hrest]
  simp [hne]

theorem binary_fail (p : Nat) (tl : List Nat) (hp : ¬(p = 66 ∨ p = 98)) :
    binaryIntegerLiteral (PState.mk (p :: tl) 0 []) =
      (false, PState.mk (p :: tl) 0 []) := by
  show (if p = 66 ∨ p = 98 then _ else (false, PState.mk (p :: tl) 0 [])) = _
  rw [if_neg hp]

theorem octal_run (p : Nat) (tl : List Nat) (hp : p = 79 ∨ p = 111)
    (ds rest : List Nat) (htl : tl = ds ++ rest) (hne : ds ≠ [])
    (hds : ∀ c ∈ ds, c ∈ octDigitChars)
    (hrest : ∀ c, rest.head? = Option.some c → c ∉ octDigitChars) :
    octalIntegerLiteral (PState.mk (p :: tl) 0 []) = (true, PState.mk rest 8 ds) := by
  subst htl
  show (if p = 79 ∨ p = 111 then
      (decide ((buildDigits octDigitChars (ds ++ rest) []).2 ≠ []),
       PState.mk (buildDigits octDigitChars (ds ++ rest) []).1 8
         (buildDigits octDigitChars (ds ++ rest) []).2)
    else (false, PState.mk (p :: (ds ++ rest)) 0 [])) = (true, PState.mk rest 8 ds)
  rw [if_pos hp, buildDigits_run octDigitChars ds rest [] hds hrest]
  simp [hne]

theorem octal_fail (p : Nat) (tl : List Nat) (hp : ¬(p = 79 ∨ p = 111)) :
    octalIntegerLiteral (PState.mk (p :: tl) 0 []) =
      (false, PState.mk (p :: tl) 0 []) := by
  show (if p = 79 ∨ p = 111 then _ else (false, PState.mk (p :: tl) 0 [])) = _
  rw [if_neg hp]

theorem hex_run (p : Nat) (tl : List Nat) (hp : p = 88 ∨ p = 120)
    (ds rest : List Nat) (htl : tl = ds ++ rest) (hne : ds ≠ [])
    (hds : ∀ c ∈ ds, c ∈ hexDigitChars)
    (hrest : ∀ c, rest.head? = Option.some c → c ∉ hexDigitChars) :
    hexIntegerLiteral (PState.mk (p :: tl) 0 []) = (true, PState.mk rest 16 ds) := by
  subst htl
  show (if p = 88 ∨ p = 120 then
      (decide ((buildDigits hexDigitChars (ds ++ rest) []).2 ≠ []),
       PState.mk (buildDigits hexDigitChars (ds ++ rest) []).1 16
         (buildDigits hexDigitChars (ds ++ rest) []).2)
    else (false, PState.mk (p :: (ds ++ rest)) 0 [])) = (true, PState.mk rest 16 ds)
  rw [if_pos hp, buildDigits_run hexDigitChars ds rest [] hds hrest]
  simp [hne]

theorem nonDecimal_run (p r : Nat) (D ds rest : List Nat)
    (hp : prefixRadix p = Option.some (r, D)) (hne : ds ≠ [])
    (hds : ∀ c ∈ ds, c ∈ D)
    (hrest : ∀ c, rest.head? = Option.some c → c ∉ D) :
    nonDecimalIntegerLiteral (PState.mk (p :: (ds ++ rest)) 0 []) =
      (true, PState.mk rest r ds) := by
  rcases prefixRadix_cases p r D hp with ⟨hp6, hr, hD⟩ | ⟨hp6, hr, hD⟩ | ⟨hp6, hr, hD⟩
  · subst hr
    subst hD
    have hbin := binary_run p (ds ++ rest) hp6 ds rest rfl hne hds hrest
    unfold nonDecimalIntegerLiteral
    rw [hbin]
    rfl
  · subst hr
    subst hD
    have hnb : ¬(p = 66 ∨ p = 98) := by
      rcases hp6 with h | h <;> subst h <;> decide
    have hbin := binary_fail p (ds ++ rest) hnb
    have hoct := octal_run p (ds ++ rest) hp6 ds rest rfl hne hds hrest
    unfold nonDecimalIntegerLiteral
    rw [hbin]
    simp only [Bool.false_eq_true, if_false]
    rw [hoct]
    rfl
  · subst hr
    subst hD
    have hnb : ¬(p = 66 ∨ p = 98) := by
      rcases hp6 with h | h <;> subst h <;> decide
    have hno : ¬(p = 79 ∨ p = 111) := by
      rcases hp6 with h | h <;> subst h <;> decide
    have hbin := binary_fail p (ds ++ rest) hnb
    have hoct := octal_fail p (ds ++ rest) hno
    have hhex := hex_run p (ds ++ rest) hp6 ds rest rfl hne hds hrest
    unfold nonDecimalIntegerLiteral
    rw [hbin]
    simp only [Bool.false_eq_true, if_false]
    rw [hoct]
    simp only [Bool.false_eq_true, if_false]
    rw [hhex]

theorem goal_nonDecimal (p r : Nat) (D ds rest : List Nat)
    (hp : prefixRadix p = Option.some (r, D)) (hne : ds ≠ [])
    (hds : ∀ c ∈ ds, c ∈ D)
    (hrest : ∀ c, rest.head? = Option.some c → c ∉ D) :
    goal (48 :: (p :: (ds ++ rest))) =
      (if checkEnd rest then Except.ok (r, ds, ParsedSign.None)
       else Except.error "trailing data in non-decimal literal") := by
  show (if (48 : Nat) = 48 then
      (if (nonDecimalIntegerLiteral (PState.mk (p :: (ds ++ rest)) 0 [])).1 then
        (if checkEnd (nonDecimalIntegerLiteral (PState.mk (p :: (ds ++ rest)) 0 [])).2.rem
         then
          Except.ok ((nonDecimalIntegerLiteral (PState.mk (p :: (ds ++ rest)) 0 [])).2.radix,
            (nonDecimalIntegerLiteral (PState.mk (p :: (ds ++ rest)) 0 [])).2.digits,
            ParsedSign.None)
        else Except.error "trailing data in non-decimal literal")
      else goalDecimal (48 :: (p :: (ds ++ rest))) 48
        (nonDecimalIntegerLiteral (PState.mk (p :: (ds ++ rest)) 0 [])).2.radix)
    else goalDecimal (48 :: (p :: (ds ++ rest))) 48 0) = _
  rw [if_pos rfl, nonDecimal_run p r D ds rest hp hne hds hrest]
  rfl

theorem skipLeadingZeros_prefix_char (p : Nat) (tail : List Nat) (hp : p ≠ 48) :
    skipLeadingZeros (48 :: (p :: tail)) = p :: tail := by
  show (if (48 : Nat) = 48 then
      (if (p :: tail) = ([] : List Nat) then [48] else skipLeadingZeros (p :: tail))
    else (48 :: (p :: tail))) = _
  rw [if_pos rfl, if_neg (by simp)]
  show (if p = 48 then _ else p :: tail) = p :: tail
  rw [if_neg hp]

/-- Claim C6 counterexample: the trimmed input 0x1 followed by a NUL code
unit and the hex digit 1 has trailing characters after the (maximal) digit
run [49], yet the parse succeeds — checkEnd treats a NUL at the cursor as
end of input — contradicting the claim that any trailing character after
the digit run makes the whole parse fail. -/
theorem c6_counterexample :
    trimInput [48, 120, 49, 0, 49] = 48 :: (120 :: ([49] ++ [0, 49])) ∧
    ([0, 49] : List Nat) ≠ [] ∧
    getStringIntegerLiteralDigitsAndSign [48, 120, 49, 0, 49] =
      Except.ok (16, [49], ParsedSign.None) := by
  refine ⟨rfl, by simp, rfl⟩

/-- Claim C6 (amended): if the whitespace-trimmed text starts with 0
followed by a radix prefix character (x/X, o/O, b/B) and a non-empty
maximal run of digits of that base, the parse succeeds with that radix,
those digits and sign None exactly when the digit run extends to the end of
the trimmed input or the character immediately after it is a NUL (which
checkEnd treats as end of input); any other trailing character makes the
whole parse fail with the trailing-data diagnostic; and a '+' or '-' before
the 0-prefix makes the whole parse fail with the invalid-literal
diagnostic. -/
theorem c6_nondecimal_spec :
    (∀ (src : List Nat) (p r : Nat) (D ds rest : List Nat),
      prefixRadix p = Option.some (r, D) →
      trimInput src = 48 :: (p :: (ds ++ rest)) →
      ds ≠ [] → (∀ c ∈ ds, c ∈ D) →
      (∀ c, rest.head? = Option.some c → c ∉ D) →
      (rest = [] →
        getStringIntegerLiteralDigitsAndSign src = Except.ok (r, ds, ParsedSign.None)) ∧
      (∀ c, rest.head? = Option.some c → c ≠ 0 →
        getStringIntegerLiteralDigitsAndSign src =
          Except.error "trailing data in non-decimal literal") ∧
      (rest.head? = Option.some 0 →
        getStringIntegerLiteralDigitsAndSign src = Except.ok (r, ds, ParsedSign.None))) ∧
    (∀ (src : List Nat) (s p r : Nat) (D tail : List Nat),
      (s = 43 ∨ s = 45) → prefixRadix p = Option.some (r, D) →
      trimInput src = s :: (48 :: (p :: tail)) →
      getStringIntegerLiteralDigitsAndSign src =
        Except.error "invalid bigint literal") := by
  constructor
  · intro src p r D ds rest hp ht hne hds hrest
    have hmain : getStringIntegerLiteralDigitsAndSign src =
        (if checkEnd rest then Except.ok (r, ds, ParsedSign.None)
         else Except.error "trailing data in non-decimal literal") := by
      unfold getStringIntegerLiteralDigitsAndSign
      rw [ht]
      exact goal_nonDecimal p r D ds rest hp hne hds hrest
    refine ⟨?_, ?_, ?_⟩
    · intro hrnil
      subst hrnil
      rw [hmain]
      rfl
    · intro c hc hc0
      rw [hmain]
      cases rest with
      | nil => simp at hc
      | cons c2 r2 =>
        simp only [List.head?_cons, Option.some.injEq] at hc
        subst hc
        rw [if_neg (by simp [checkEnd, hc0])]
    · intro hc
      rw [hmain]
      cases rest with
      | nil => simp at hc
      | cons c2 r2 =>
        simp only [List.head?_cons, Option.some.injEq] at hc
        rw [if_pos (by simp [checkEnd, ← hc])]
  · intro src s p r D tail hs hp ht
    have hs48 : s ≠ 48 := by rcases hs with h | h <;> subst h <;> decide
    have hpd := prefixChar_not_digit p r D hp
    unfold getStringIntegerLiteralDigitsAndSign
    rw [ht]
    show (if s = 48 then _ else goalDecimal (s :: (48 :: (p :: tail))) s 0) = _
    rw [if_neg hs48]
    unfold goalDecimal
    have hsign : goalDecimalSign (s :: (48 :: (p :: tail))) =
        (Option.some s, 48 :: (p :: tail)) := by
      show (if s = 43 ∨ s = 45 then (Option.some s, 48 :: (p :: tail))
        else (Option.none, s :: (48 :: (p :: tail)))) = _
      rw [if_pos hs]
    rw [hsign]
    have hdec : decimalDigits (PState.mk (48 :: (p :: tail)) 0 []) =
        (false, PState.mk (p :: tail) 0 []) := by
      unfold decimalDigits
      rw [show (PState.mk (48 :: (p :: tail)) 0 []).rem = 48 :: (p :: tail) from rfl]
      rw [skipLeadingZeros_prefix_char p tail hpd.1]
      change (if p ∈ decDigitChars then _ else _) = _
      rw [if_neg hpd.2]
    rw [hdec]
    rfl

/-- Witness for the amended C6 theorem at concrete inputs. -/
theorem c6_witness :
    getStringIntegerLiteralDigitsAndSign [48, 120, 49, 70] =
      Except.ok (16, [49, 70], ParsedSign.None) ∧
    getStringIntegerLiteralDigitsAndSign [43, 48, 120, 49] =
      Except.error "invalid bigint literal" :=
  ⟨(c6_nondecimal_spec.1 [48, 120, 49, 70] 120 16 hexDigitChars [49, 70] []
      (by decide) rfl (by simp) (by decide) (by simp)).1 rfl,
   c6_nondecimal_spec.2 [43, 48, 120, 49] 43 120 16 hexDigitChars [49]
      (Or.inl rfl) (by decide) rfl⟩

/-- Claim C7: parsing the string "  -042 " succeeds with radix 10, sign
Minus and digit characters "42" (surrounding JS whitespace trimmed, the
explicit minus recorded, leading zeros before a non-zero digit dropped),
while the lone literal "0" keeps its single zero digit. -/
theorem c7_decimal_example :
    getStringIntegerLiteralDigitsAndSign [32, 32, 45, 48, 52, 50, 32] =
      Except.ok (10, [52, 50], ParsedSign.Minus) ∧
    getStringIntegerLiteralDigitsAndSign [48] =
      Except.ok (10, [48], ParsedSign.None) := by
  constructor <;> rfl

/-- Claim C10 counterexample: for the input consisting of a single NUL code
unit the parse succeeds (the constructor drops the NUL, leaving the empty
literal 0), but appending one more NUL changes the result to a parse
failure — only one trailing NUL is dropped and a NUL is not whitespace — so
appending a NUL is not always transparent. -/
theorem c10_counterexample :
    getStringIntegerLiteralDigitsAndSign [0] =
      Except.ok (10, [48], ParsedSign.None) ∧
    getStringIntegerLiteralDigitsAndSign ([0] ++ [0]) =
      Except.error "invalid bigint literal" := by
  constructor <;> rfl

/-- Claim C10 (amended): appending a single NUL code unit does not change
the result of getStringIntegerLiteralDigitsAndSign provided the input does
not already end in a NUL (the parser drops exactly one trailing NUL before
whitespace trimming); for inputs already ending in NUL the appended NUL can
change the result. -/
theorem c10_nul_append (src : List Nat) (h : src.getLast? ≠ Option.some 0) :
    getStringIntegerLiteralDigitsAndSign (src ++ [0]) =
      getStringIntegerLiteralDigitsAndSign src := by
  have h1 : dropOneTrailingNul (src ++ [0]) = src := by
    unfold dropOneTrailingNul
    rw [List.getLast?_concat]
    exact List.dropLast_concat
  have h2 : dropOneTrailingNul src = src := by
    unfold dropOneTrailingNul
    rcases hl : src.getLast? with _ | d
    · rfl
    · cases d with
      | zero => exact absurd hl h
      | succ n => rfl
  unfold getStringIntegerLiteralDigitsAndSign trimInput
  rw [h1, h2]

/-- Witness for the amended C10 theorem at a concrete input. -/
theorem c10_witness :
    getStringIntegerLiteralDigitsAndSign [49, 0] =
      getStringIntegerLiteralDigitsAndSign [49] :=
  c10_nul_append [49] (by decide)

end bigint
end hermes
